import Mathlib

/-!
# hector_slam: OccGridMapUtil

A shallow embedding of `hector_mapping/include/hector_slam_lib/map/OccGridMapUtil.h`
and theorems about bilinear map interpolation, the Gauss-Newton system and the
sigma-point covariance.

Conventions of the embedding.

* `float` is an arbitrary linearly ordered field `F` with a floor function
  (exact arithmetic); `int` is `Int` (map indices are assumed to fit).
* The member state of `OccGridMapUtil` that the methods modify (`intensities`,
  `cacheMethod`) is passed explicitly and returned; the grid map is a constant
  read-only argument.
* Division by zero has no value in exact arithmetic: the two divisions of the
  source return `Option`.
* `sin` and `cos` of `<cmath>` are parameters (`Trig`).
-/

namespace hectorslam

/-! ## Collaborators that are template parameters or library code -/

/-- Modelled from the spec: the `ConcreteOccGridMap` template parameter (the spec's
GridAccessor); its class is not part of this file. Only the queries the code calls:
`getSizeX()` (grid width for row-major flattening), `getCellLength()`,
`pointOutOfMapBounds(coords)` and `getGridProbabilityMap(index)`. -/
structure OccGridMap (F : Type) where
  getSizeX : Int
  getCellLength : F
  pointOutOfMapBounds : F × F → Bool
  getGridProbabilityMap : Int → F

/-- Modelled from the spec: the `ConcreteCacheMethod` template parameter (the spec's
CacheLayer, "memoized grid probability lookups keyed by flattened cell index",
contract `tryGet(index) -> optional value`, `put(index, value)`, `reset()`).
A cache is the partial map from flat index to the value held for it. -/
structure CacheMethod (F : Type) where
  entries : Int → Option F

/-- Modelled from the spec: `containsCachedData(index, val)`, the spec's `tryGet`:
`some val` when it returns true and writes `val`, `none` when it returns false. -/
def CacheMethod.containsCachedData {F : Type} (c : CacheMethod F) (index : Int) : Option F :=
  c.entries index

/-- Modelled from the spec: `cacheData(index, val)`, the spec's `put`. -/
def CacheMethod.cacheData {F : Type} (c : CacheMethod F) (index : Int) (val : F) :
    CacheMethod F :=
  ⟨fun j => if j = index then some val else c.entries j⟩

/-- Modelled from the spec: `resetCache()`, the spec's `reset`: afterwards no index is
reported as cached. -/
def CacheMethod.resetCache {F : Type} (_c : CacheMethod F) : CacheMethod F :=
  ⟨fun _ => none⟩

/-- Modelled from the spec: `sin` and `cos` of `<cmath>`, taken as parameters. -/
structure Trig (F : Type) where
  sin : F → F
  cos : F → F

/-- Modelled from the spec: `DataContainer` of `scan/DataPointContainer.h` (the spec's
ScanPoints, "ordered sequence of 2D points in sensor frame"); `getSize()` is the length and
`getVecEntry(i)` the `i`-th point. -/
abbrev DataContainer (F : Type) := List (F × F)

/-- Modelled from the spec: `Eigen::Affine2f`, a 2D affine map `p ↦ L p + t` given by the
entries of its linear part and its translation. -/
structure Affine2f (F : Type) where
  m00 : F
  m01 : F
  m10 : F
  m11 : F
  tx : F
  ty : F

/-- The mutable members of `OccGridMapUtil` that the methods below touch:
`Eigen::Vector4f intensities` and `ConcreteCacheMethod cacheMethod`. -/
structure OccGridMapUtil (F : Type) where
  intensities : Fin 4 → F
  cacheMethod : CacheMethod F

section Embedding

set_option linter.unusedSectionVars false

variable {F : Type} [LinearOrderedField F] [FloorRing F]

/-- The C++ conversion `float -> int` (`coords.cast<int>()`): truncation toward zero. -/
def castInt (x : F) : Int :=
  if 0 ≤ x then Int.floor x else Int.ceil x

/-- Transcription of `getUnfilteredGridPoint(int index)`. -/
def getUnfilteredGridPoint (m : OccGridMap F) (index : Int) : F :=
  m.getGridProbabilityMap index

/-- The block repeated four times in both interpolation methods:
```
if (!cacheMethod.containsCachedData(index, intensities[k])) {
  intensities[k] = getUnfilteredGridPoint(index);
  cacheMethod.cacheData(index, intensities[k]);
}
```
-/
def loadIntensity (m : OccGridMap F) (u : OccGridMapUtil F) (index : Int) (k : Fin 4) :
    OccGridMapUtil F :=
  match u.cacheMethod.containsCachedData index with
  | some val => { u with intensities := Function.update u.intensities k val }
  | none =>
    let intensities := Function.update u.intensities k (getUnfilteredGridPoint m index)
    { intensities := intensities
      cacheMethod := u.cacheMethod.cacheData index (intensities k) }

/-- Transcription of `interpMapValue(coords)`: the returned float and the members after
the call. -/
def interpMapValue (m : OccGridMap F) (u : OccGridMapUtil F) (coords : F × F) :
    F × OccGridMapUtil F :=
  if m.pointOutOfMapBounds coords then
    (0, u)
  else
    let indMin : Int × Int := (castInt coords.1, castInt coords.2)
    let factors : F × F := (coords.1 - (indMin.1 : F), coords.2 - (indMin.2 : F))
    let sizeX : Int := m.getSizeX
    let index : Int := indMin.2 * sizeX + indMin.1
    let u := loadIntensity m u index 0
    let index := index + 1
    let u := loadIntensity m u index 1
    let index := index + (sizeX - 1)
    let u := loadIntensity m u index 2
    let index := index + 1
    let u := loadIntensity m u index 3
    let xFacInv : F := 1 - factors.1
    let yFacInv : F := 1 - factors.2
    (((u.intensities 0 * xFacInv + u.intensities 1 * factors.1) * yFacInv) +
      ((u.intensities 2 * xFacInv + u.intensities 3 * factors.1) * factors.2), u)

/-- Transcription of `interpMapValueWithDerivatives(coords)`: the returned
`Vector3f` and the members after the call. -/
def interpMapValueWithDerivatives (m : OccGridMap F) (u : OccGridMapUtil F) (coords : F × F) :
    (Fin 3 → F) × OccGridMapUtil F :=
  if m.pointOutOfMapBounds coords then
    (![0, 0, 0], u)
  else
    let indMin : Int × Int := (castInt coords.1, castInt coords.2)
    let factors : F × F := (coords.1 - (indMin.1 : F), coords.2 - (indMin.2 : F))
    let sizeX : Int := m.getSizeX
    let index : Int := indMin.2 * sizeX + indMin.1
    let u := loadIntensity m u index 0
    let index := index + 1
    let u := loadIntensity m u index 1
    let index := index + (sizeX - 1)
    let u := loadIntensity m u index 2
    let index := index + 1
    let u := loadIntensity m u index 3
    let dx1 : F := u.intensities 0 - u.intensities 1
    let dx2 : F := u.intensities 2 - u.intensities 3
    let dy1 : F := u.intensities 0 - u.intensities 2
    let dy2 : F := u.intensities 1 - u.intensities 3
    let xFacInv : F := 1 - factors.1
    let yFacInv : F := 1 - factors.2
    (![((u.intensities 0 * xFacInv + u.intensities 1 * factors.1) * yFacInv) +
        ((u.intensities 2 * xFacInv + u.intensities 3 * factors.1) * factors.2),
       -((dx1 * yFacInv) + (dx2 * factors.2)),
       -((dy1 * xFacInv) + (dy2 * factors.1))], u)

/-- Modelled from the spec: `util::sqr` of `util/UtilFunctions.h`, the square
("scaled by cellLength²"). -/
def sqr (x : F) : F := x * x

/-- Modelled from the spec: Eigen's `transform * point` for an `Affine2f`. -/
def Affine2f.apply (t : Affine2f F) (p : F × F) : F × F :=
  (t.m00 * p.1 + t.m01 * p.2 + t.tx, t.m10 * p.1 + t.m11 * p.2 + t.ty)

/-- Modelled from the spec: Eigen's coefficient assignment `M(i, j) = v`. -/
def setCoeff (M : Matrix (Fin 3) (Fin 3) F) (i j : Fin 3) (v : F) : Matrix (Fin 3) (Fin 3) F :=
  Matrix.of fun a b => if a = i ∧ b = j then v else M a b

/-- Transcription of `getTransformForState(transVector)`:
`Translation2f(tv[0], tv[1]) * Rotation2Df(tv[2])`, the rotation by `tv[2]` followed by the
translation. -/
def getTransformForState (T : Trig F) (transVector : Fin 3 → F) : Affine2f F :=
  { m00 := T.cos (transVector 2), m01 := -T.sin (transVector 2)
    m10 := T.sin (transVector 2), m11 := T.cos (transVector 2)
    tx := transVector 0, ty := transVector 1 }

/-- Body of the scan loop of `getCompleteHessianDerivs`, on the loop-carried values
`(H, dTr)` and the members. -/
def hessianDerivsStep (m : OccGridMap F) (transform : Affine2f F) (sinRot cosRot : F)
    (acc : Matrix (Fin 3) (Fin 3) F × (Fin 3 → F) × OccGridMapUtil F) (currPoint : F × F) :
    Matrix (Fin 3) (Fin 3) F × (Fin 3 → F) × OccGridMapUtil F :=
  let H := acc.1
  let dTr := acc.2.1
  let r := interpMapValueWithDerivatives m acc.2.2 (transform.apply currPoint)
  let transformedPointData : Fin 3 → F := r.1
  let funVal : F := 1 - transformedPointData 0
  let dTr := Function.update dTr 0 (dTr 0 + transformedPointData 1 * funVal)
  let dTr := Function.update dTr 1 (dTr 1 + transformedPointData 2 * funVal)
  let rotDeriv : F :=
    ((-sinRot * currPoint.1 - cosRot * currPoint.2) * transformedPointData 1 +
      (cosRot * currPoint.1 - sinRot * currPoint.2) * transformedPointData 2)
  let dTr := Function.update dTr 2 (dTr 2 + rotDeriv * funVal)
  let H := setCoeff H 0 0 (H 0 0 + sqr (transformedPointData 1))
  let H := setCoeff H 1 1 (H 1 1 + sqr (transformedPointData 2))
  let H := setCoeff H 2 2 (H 2 2 + sqr rotDeriv)
  let H := setCoeff H 0 1 (H 0 1 + transformedPointData 1 * transformedPointData 2)
  let H := setCoeff H 0 2 (H 0 2 + transformedPointData 1 * rotDeriv)
  let H := setCoeff H 1 2 (H 1 2 + transformedPointData 2 * rotDeriv)
  (H, dTr, r.2)

/-- Transcription of `getCompleteHessianDerivs(pose, dataPoints, H, dTr)`: the output
parameters `H`, `dTr` and the members after the call. -/
def getCompleteHessianDerivs (T : Trig F) (m : OccGridMap F) (u : OccGridMapUtil F)
    (pose : Fin 3 → F) (dataPoints : DataContainer F) :
    Matrix (Fin 3) (Fin 3) F × (Fin 3 → F) × OccGridMapUtil F :=
  let transform := getTransformForState T pose
  let sinRot : F := T.sin (pose 2)
  let cosRot : F := T.cos (pose 2)
  let H : Matrix (Fin 3) (Fin 3) F := 0
  let dTr : Fin 3 → F := 0
  let acc := dataPoints.foldl (hessianDerivsStep m transform sinRot cosRot) (H, dTr, u)
  let H := acc.1
  let H := setCoeff H 1 0 (H 0 1)
  let H := setCoeff H 2 0 (H 0 2)
  let H := setCoeff H 2 1 (H 1 2)
  (H, acc.2.1, acc.2.2)

/-- Transcription of `getResidualForState(state, dataPoints)`: the returned residual and the
members after the call. -/
def getResidualForState (T : Trig F) (m : OccGridMap F) (u : OccGridMapUtil F)
    (state : Fin 3 → F) (dataPoints : DataContainer F) : F × OccGridMapUtil F :=
  let residual : F := 0
  let transform := getTransformForState T state
  dataPoints.foldl
    (fun (acc : F × OccGridMapUtil F) (p : F × F) =>
      let r := interpMapValue m acc.2 (transform.apply p)
      let funval : F := 1 - r.1
      (acc.1 + funval, r.2))
    (residual, u)

/-- Transcription of `getLikelihoodForResidual(residual, numDataPoints)`:
`1 - (residual / sizef)`; the quotient has no value when `sizef` is zero. -/
def getLikelihoodForResidual (residual : F) (numDataPoints : Int) : Option F :=
  let sizef : F := (numDataPoints : F)
  if sizef = 0 then none else some (1 - (residual / sizef))

/-- Transcription of `getLikelihoodForState(state, dataPoints)`. -/
def getLikelihoodForState (T : Trig F) (m : OccGridMap F) (u : OccGridMapUtil F)
    (state : Fin 3 → F) (dataPoints : DataContainer F) : Option F × OccGridMapUtil F :=
  let resid := getResidualForState T m u state dataPoints
  (getLikelihoodForResidual resid.1 (dataPoints.length : Int), resid.2)

/-- Transcription of `getCovarianceForPose(mapPose, dataPoints)`: the returned matrix (none
when a likelihood or `1 / likelihoods.sum()` has no value) and the members after the call.
The `std::cout` line is output only and is left out. -/
def getCovarianceForPose (T : Trig F) (m : OccGridMap F) (u : OccGridMapUtil F)
    (mapPose : Fin 3 → F) (dataPoints : DataContainer F) :
    Option (Matrix (Fin 3) (Fin 3) F) × OccGridMapUtil F :=
  let deltaTransX : F := 1.5
  let deltaTransY : F := 1.5
  let deltaAng : F := 0.05
  let x : F := mapPose 0
  let y : F := mapPose 1
  let ang : F := mapPose 2
  let sigmaPoints : Fin 7 → Fin 3 → F :=
    ![![x + deltaTransX, y, ang], ![x - deltaTransX, y, ang], ![x, y + deltaTransY, ang],
      ![x, y - deltaTransY, ang], ![x, y, ang + deltaAng], ![x, y, ang - deltaAng], mapPose]
  let l0 := getLikelihoodForState T m u ![x + deltaTransX, y, ang] dataPoints
  let l1 := getLikelihoodForState T m l0.2 ![x - deltaTransX, y, ang] dataPoints
  let l2 := getLikelihoodForState T m l1.2 ![x, y + deltaTransY, ang] dataPoints
  let l3 := getLikelihoodForState T m l2.2 ![x, y - deltaTransY, ang] dataPoints
  let l4 := getLikelihoodForState T m l3.2 ![x, y, ang + deltaAng] dataPoints
  let l5 := getLikelihoodForState T m l4.2 ![x, y, ang - deltaAng] dataPoints
  let l6 := getLikelihoodForState T m l5.2 ![x, y, ang] dataPoints
  match l0.1, l1.1, l2.1, l3.1, l4.1, l5.1, l6.1 with
  | some a0, some a1, some a2, some a3, some a4, some a5, some a6 =>
    let likelihoods : Fin 7 → F := ![a0, a1, a2, a3, a4, a5, a6]
    let sum : F := ∑ i, likelihoods i
    if sum = 0 then (none, l6.2) else
    let invLhNormalizer : F := 1 / sum
    let mean : Fin 3 → F :=
      (List.finRange 7).foldl (fun mean i => mean + likelihoods i • sigmaPoints i) 0
    let mean := invLhNormalizer • mean
    let covMatrixMap : Matrix (Fin 3) (Fin 3) F :=
      (List.finRange 7).foldl
        (fun cov i =>
          let sigPointMinusMean : Fin 3 → F := sigmaPoints i - mean
          cov + (likelihoods i * invLhNormalizer) •
            Matrix.vecMulVec sigPointMinusMean sigPointMinusMean)
        0
    (some covMatrixMap, l6.2)
  | _, _, _, _, _, _, _ => (none, l6.2)

/-- The assignments of `getCovMatrixWorldCoords(covMatMap)` applied to a local
`covMatWorld` whose (uninitialised) starting content is `covMatWorld`. -/
def getCovMatrixWorldCoordsFrom (covMatWorld : Matrix (Fin 3) (Fin 3) F) (m : OccGridMap F)
    (covMatMap : Matrix (Fin 3) (Fin 3) F) : Matrix (Fin 3) (Fin 3) F :=
  let scaleTrans : F := m.getCellLength
  let scaleTransSq : F := sqr scaleTrans
  let covMatWorld := setCoeff covMatWorld 0 0 (covMatMap 0 0 * scaleTransSq)
  let covMatWorld := setCoeff covMatWorld 1 1 (covMatMap 1 1 * scaleTransSq)
  let covMatWorld := setCoeff covMatWorld 1 0 (covMatMap 1 0 * scaleTransSq)
  let covMatWorld := setCoeff covMatWorld 0 1 (covMatWorld 1 0)
  let covMatWorld := setCoeff covMatWorld 2 0 (covMatMap 2 0 * scaleTrans)
  let covMatWorld := setCoeff covMatWorld 0 2 (covMatWorld 2 0)
  let covMatWorld := setCoeff covMatWorld 2 1 (covMatMap 2 1 * scaleTrans)
  let covMatWorld := setCoeff covMatWorld 1 2 (covMatWorld 2 1)
  let covMatWorld := setCoeff covMatWorld 2 2 (covMatMap 2 2)
  covMatWorld

/-- Transcription of `getCovMatrixWorldCoords(covMatMap)`. All nine coefficients of the
local are assigned, so its starting content is immaterial
(`getCovMatrixWorldCoordsFrom_indep`); zero is used. -/
def getCovMatrixWorldCoords (m : OccGridMap F) (covMatMap : Matrix (Fin 3) (Fin 3) F) :
    Matrix (Fin 3) (Fin 3) F :=
  getCovMatrixWorldCoordsFrom 0 m covMatMap

/-- Transcription of `resetCachedData()`. -/
def resetCachedData (u : OccGridMapUtil F) : OccGridMapUtil F :=
  { u with cacheMethod := u.cacheMethod.resetCache }

/-! ## Vocabulary of the properties -/

/-- The bilinear interpolant of the spec, written from its words:
`((P00·(1−fx)+P10·fx)·(1−fy)) + ((P01·(1−fx)+P11·fx)·fy)`. -/
def bilinear (P00 P10 P01 P11 fx fy : F) : F :=
  ((P00 * (1 - fx) + P10 * fx) * (1 - fy)) + ((P01 * (1 - fx) + P11 * fx) * fy)

/-- The cache holds no entry disagreeing with the map: whatever it reports for an index is
the map's probability at that index. -/
def CacheCoherent (m : OccGridMap F) (c : CacheMethod F) : Prop :=
  ∀ (i : Int) (v : F), c.containsCachedData i = some v → v = m.getGridProbabilityMap i

/-- The members after the four corner fetches of the interpolation methods, started at flat
index `index` in a map of width `sizeX`. -/
def loadCorners (m : OccGridMap F) (u : OccGridMapUtil F) (index sizeX : Int) :
    OccGridMapUtil F :=
  loadIntensity m
    (loadIntensity m (loadIntensity m (loadIntensity m u index 0) (index + 1) 1)
      (index + 1 + (sizeX - 1)) 2)
    (index + 1 + (sizeX - 1) + 1) 3

/-! ## Vocabulary of the Gauss-Newton system and the covariance -/

/-- The pose transform in the words of the spec, "rotate by heading, then translate":
`T(pose) p = (x + cos θ · px − sin θ · py, y + sin θ · px + cos θ · py)`. -/
def poseTransform (T : Trig F) (pose : Fin 3 → F) (p : F × F) : F × F :=
  (pose 0 + T.cos (pose 2) * p.1 - T.sin (pose 2) * p.2,
    pose 1 + T.sin (pose 2) * p.1 + T.cos (pose 2) * p.2)

/-- The vectors returned by consecutive calls of `interpMapValueWithDerivatives` on the
points of a list, each call starting from the members the previous one left, and the
members after the last call. -/
def interpSeqWithDerivatives (m : OccGridMap F) (u : OccGridMapUtil F) :
    List (F × F) → List (Fin 3 → F) × OccGridMapUtil F
  | [] => ([], u)
  | p :: ps =>
    let r := interpMapValueWithDerivatives m u p
    let rest := interpSeqWithDerivatives m r.2 ps
    (r.1 :: rest.1, rest.2)

/-- The row `J = (gx, gy, rotDeriv)` of a scan point `p` (sensor frame) whose interpolation
result is `d = (M, gx, gy)`, with
`rotDeriv = (−sin θ · px − cos θ · py) · gx + (cos θ · px − sin θ · py) · gy`. -/
def jacobianRow (T : Trig F) (pose : Fin 3 → F) (p : F × F) (d : Fin 3 → F) : Fin 3 → F :=
  ![d 1, d 2,
    (-T.sin (pose 2) * p.1 - T.cos (pose 2) * p.2) * d 1 +
      (T.cos (pose 2) * p.1 - T.sin (pose 2) * p.2) * d 2]

/-- The upper triangle (diagonal included) of the outer product `J Jᵀ`, zero below it. -/
def upperOuter (J : Fin 3 → F) : Matrix (Fin 3) (Fin 3) F :=
  Matrix.of fun a b => if a ≤ b then J a * J b else 0

/-- The three assignments after the scan loop of `getCompleteHessianDerivs`:
`H(1,0) = H(0,1); H(2,0) = H(0,2); H(2,1) = H(1,2)`. -/
def mirrorLower (H : Matrix (Fin 3) (Fin 3) F) : Matrix (Fin 3) (Fin 3) F :=
  let H := setCoeff H 1 0 (H 0 1)
  let H := setCoeff H 2 0 (H 0 2)
  let H := setCoeff H 2 1 (H 1 2)
  H

/-- The values returned by consecutive calls of `interpMapValue` on the points of a list,
each call starting from the members the previous one left, and the members after the last
call. -/
def interpSeq (m : OccGridMap F) (u : OccGridMapUtil F) :
    List (F × F) → List F × OccGridMapUtil F
  | [] => ([], u)
  | p :: ps =>
    let r := interpMapValue m u p
    let rest := interpSeq m r.2 ps
    (r.1 :: rest.1, rest.2)

/-- The likelihood of a sigma pose in the words of the spec,
`1 − (Σ residuals)/numPoints` with residual `1 − interpMapValue(T(sigma) p)` per scan point,
and the members after its interpolation calls. -/
def likelihoodSpec (T : Trig F) (m : OccGridMap F) (u : OccGridMapUtil F) (pts : List (F × F))
    (sigma : Fin 3 → F) : F × OccGridMapUtil F :=
  let r := interpSeq m u (pts.map (poseTransform T sigma))
  (1 - (r.1.map fun M => 1 - M).sum / (pts.length : F), r.2)

/-- The likelihoods of a list of sigma poses, evaluated one after the other (each from the
members the previous one left). -/
def likelihoodsSpec (T : Trig F) (m : OccGridMap F) (pts : List (F × F)) :
    OccGridMapUtil F → List (Fin 3 → F) → List F × OccGridMapUtil F
  | u, [] => ([], u)
  | u, sigma :: sigmas =>
    let r := likelihoodSpec T m u pts sigma
    let rest := likelihoodsSpec T m pts r.2 sigmas
    (r.1 :: rest.1, rest.2)

/-- The seven sigma poses of the spec: the pose perturbed by `±1.5` along x, by `±1.5`
along y, by `±0.05` along theta, and the unperturbed pose. -/
def sigmaPoses (pose : Fin 3 → F) : List (Fin 3 → F) :=
  [![pose 0 + 1.5, pose 1, pose 2], ![pose 0 - 1.5, pose 1, pose 2],
   ![pose 0, pose 1 + 1.5, pose 2], ![pose 0, pose 1 - 1.5, pose 2],
   ![pose 0, pose 1, pose 2 + 0.05], ![pose 0, pose 1, pose 2 - 0.05],
   ![pose 0, pose 1, pose 2]]

/-- The covariance of the spec for sigma poses `sigmas` with likelihoods `l`: weights
`w_i = l_i / S` with `S` the sum of the likelihoods, `mean = Σ w_i · sigma_i` and
`Cov = Σ w_i · (sigma_i − mean)(sigma_i − mean)ᵀ`. -/
def weightedCovariance (sigmas : List (Fin 3 → F)) (l : List F) : Matrix (Fin 3) (Fin 3) F :=
  let S : F := l.sum
  let w : List F := l.map fun li => li / S
  let mean : Fin 3 → F := (List.zipWith (fun (wi : F) (si : Fin 3 → F) => wi • si) w sigmas).sum
  (List.zipWith (fun (wi : F) (si : Fin 3 → F) =>
    wi • Matrix.vecMulVec (si - mean) (si - mean)) w sigmas).sum

/-! ## Vocabulary of the range and cache invariants -/

/-- Every value the cache holds is a probability: it lies in `[0, 1]`. -/
def CacheInUnit (c : CacheMethod F) : Prop :=
  ∀ (i : Int) (v : F), c.containsCachedData i = some v → 0 ≤ v ∧ v ≤ 1

/-- The fractional offset `x - (int) x` the interpolation methods compute for a coordinate. -/
def fracOffset (x : F) : F := x - (castInt x : F)

/-- One interpolation call: `interpMapValue` or `interpMapValueWithDerivatives` at a point. -/
inductive Query (F : Type) where
  | value (coords : F × F) : Query F
  | withDerivatives (coords : F × F) : Query F

/-- The result of one interpolation call (a float or a `Vector3f`) and the members after
it. -/
def runQuery (m : OccGridMap F) (u : OccGridMapUtil F) :
    Query F → (F ⊕ (Fin 3 → F)) × OccGridMapUtil F
  | Query.value coords =>
    let r := interpMapValue m u coords
    (Sum.inl r.1, r.2)
  | Query.withDerivatives coords =>
    let r := interpMapValueWithDerivatives m u coords
    (Sum.inr r.1, r.2)

/-- The results of a sequence of interpolation calls, each starting from the members the
previous one left, and the members after the last call. -/
def runQueries (m : OccGridMap F) :
    OccGridMapUtil F → List (Query F) → List (F ⊕ (Fin 3 → F)) × OccGridMapUtil F
  | u, [] => ([], u)
  | u, q :: qs =>
    let r := runQuery m u q
    let rest := runQueries m r.2 qs
    (r.1 :: rest.1, rest.2)

/-! ## Concrete inputs -/

/-- A 4×4 map (in bounds: `0 ≤ x, y ≤ 3`) whose cell 0 holds probability 1 and every
other cell 0. -/
def cornerMap (F : Type) [LinearOrderedField F] : OccGridMap F :=
  { getSizeX := 4
    getCellLength := 1 / 10
    pointOutOfMapBounds := fun p => decide (p.1 < 0 ∨ 3 < p.1 ∨ p.2 < 0 ∨ 3 < p.2)
    getGridProbabilityMap := fun i => if i = 0 then 1 else 0 }

/-- Members right after construction or a reset: nothing cached. -/
def freshUtil (F : Type) [LinearOrderedField F] : OccGridMapUtil F :=
  { intensities := ![0, 0, 0, 0], cacheMethod := ⟨fun _ => none⟩ }

/-- A 4×4 map (in bounds: `0 ≤ x, y ≤ 3`) all of whose cells hold the probability `c`. -/
def uniformMap (F : Type) [LinearOrderedField F] (c : F) : OccGridMap F :=
  { getSizeX := 4
    getCellLength := 1 / 10
    pointOutOfMapBounds := fun p => decide (p.1 < 0 ∨ 3 < p.1 ∨ p.2 < 0 ∨ 3 < p.2)
    getGridProbabilityMap := fun _ => c }

/-- A stale cache: it reports probability 0 for flat index 0 and holds nothing else. -/
def staleUtil (F : Type) [LinearOrderedField F] : OccGridMapUtil F :=
  { intensities := ![0, 0, 0, 0], cacheMethod := ⟨fun i => if i = 0 then some 0 else none⟩ }

/-! # Theorems -/

/-! ## The cached corner fetch -/

theorem loadIntensity_intensities (m : OccGridMap F) (u : OccGridMapUtil F) (index : Int)
    (k : Fin 4) (h : CacheCoherent m u.cacheMethod) :
    (loadIntensity m u index k).intensities =
      Function.update u.intensities k (m.getGridProbabilityMap index) := by
  unfold loadIntensity
  cases hc : u.cacheMethod.containsCachedData index with
  | none => simp [getUnfilteredGridPoint]
  | some val => simp [h index val hc]

theorem loadIntensity_coherent (m : OccGridMap F) (u : OccGridMapUtil F) (index : Int)
    (k : Fin 4) (h : CacheCoherent m u.cacheMethod) :
    CacheCoherent m (loadIntensity m u index k).cacheMethod := by
  unfold loadIntensity
  cases hc : u.cacheMethod.containsCachedData index with
  | some val => simpa using h
  | none =>
    intro i v hv
    simp only [CacheMethod.containsCachedData, CacheMethod.cacheData, getUnfilteredGridPoint,
      Function.update_same] at hv
    by_cases hi : i = index
    · subst hi
      simp only [if_true] at hv
      exact (Option.some.inj hv).symm
    · rw [if_neg hi] at hv
      exact h i v hv

theorem loadCorners_coherent (m : OccGridMap F) (u : OccGridMapUtil F) (index sizeX : Int)
    (h : CacheCoherent m u.cacheMethod) :
    CacheCoherent m (loadCorners m u index sizeX).cacheMethod := by
  unfold loadCorners
  exact loadIntensity_coherent _ _ _ _ (loadIntensity_coherent _ _ _ _
    (loadIntensity_coherent _ _ _ _ (loadIntensity_coherent _ _ _ _ h)))

theorem loadCorners_intensities (m : OccGridMap F) (u : OccGridMapUtil F) (index sizeX : Int)
    (h : CacheCoherent m u.cacheMethod) :
    (loadCorners m u index sizeX).intensities =
      ![m.getGridProbabilityMap index, m.getGridProbabilityMap (index + 1),
        m.getGridProbabilityMap (index + sizeX), m.getGridProbabilityMap (index + sizeX + 1)] := by
  have h1 := loadIntensity_coherent m u index 0 h
  have h2 := loadIntensity_coherent m _ (index + 1) 1 h1
  have h3 := loadIntensity_coherent m _ (index + 1 + (sizeX - 1)) 2 h2
  have e : index + 1 + (sizeX - 1) = index + sizeX := by ring
  unfold loadCorners
  rw [loadIntensity_intensities _ _ _ _ h3, loadIntensity_intensities _ _ _ _ h2,
    loadIntensity_intensities _ _ _ _ h1, loadIntensity_intensities _ _ _ _ h, e]
  funext k
  fin_cases k <;> simp [Function.update]

theorem interpMapValue_inBounds (m : OccGridMap F) (u : OccGridMapUtil F) (coords : F × F)
    (hin : m.pointOutOfMapBounds coords = false) :
    interpMapValue m u coords =
      (let u1 := loadCorners m u (castInt coords.2 * m.getSizeX + castInt coords.1) m.getSizeX
       (bilinear (u1.intensities 0) (u1.intensities 1) (u1.intensities 2) (u1.intensities 3)
          (coords.1 - (castInt coords.1 : F)) (coords.2 - (castInt coords.2 : F)), u1)) := by
  simp only [interpMapValue, hin, loadCorners, bilinear]
  rfl

theorem castInt_of_nonneg (x : F) (hx : 0 ≤ x) : castInt x = Int.floor x := by
  simp [castInt, hx]

theorem freshUtil_coherent (m : OccGridMap F) : CacheCoherent m (freshUtil F).cacheMethod := by
  intro i v h
  simp [freshUtil, CacheMethod.containsCachedData] at h

theorem interpMapValue_coherent (m : OccGridMap F) (u : OccGridMapUtil F) (coords : F × F)
    (hin : m.pointOutOfMapBounds coords = false) (hc : CacheCoherent m u.cacheMethod) :
    (interpMapValue m u coords).1 =
      (let index := castInt coords.2 * m.getSizeX + castInt coords.1
       bilinear (m.getGridProbabilityMap index) (m.getGridProbabilityMap (index + 1))
        (m.getGridProbabilityMap (index + m.getSizeX))
        (m.getGridProbabilityMap (index + m.getSizeX + 1))
        (coords.1 - (castInt coords.1 : F)) (coords.2 - (castInt coords.2 : F))) := by
  rw [interpMapValue_inBounds m u coords hin]
  simp only [loadCorners_intensities m u _ _ hc]
  simp

/-- C1: for an in-bounds point with non-negative coordinates and a cache coherent with the
map, `interpMapValue` returns the bilinear blend of the four map values at the row-major
indices `y0*W + x0`, `y0*W + x0 + 1`, `(y0+1)*W + x0`, `(y0+1)*W + x0 + 1`, with
`x0 = floor x`, `y0 = floor y` and offsets `fx = x - x0`, `fy = y - y0` in `[0,1)`; with
corners `1, 0, 0, 0` and query `(1/2, 1/2)` the result is `1/4`. -/
theorem interpMapValue_bilinear (m : OccGridMap F) (u : OccGridMapUtil F) (x y : F)
    (hin : m.pointOutOfMapBounds (x, y) = false) (hx : 0 ≤ x) (hy : 0 ≤ y)
    (hc : CacheCoherent m u.cacheMethod) :
    let x0 : Int := Int.floor x
    let y0 : Int := Int.floor y
    let fx : F := x - (x0 : F)
    let fy : F := y - (y0 : F)
    let W : Int := m.getSizeX
    let P00 : F := m.getGridProbabilityMap (y0 * W + x0)
    let P10 : F := m.getGridProbabilityMap (y0 * W + x0 + 1)
    let P01 : F := m.getGridProbabilityMap ((y0 + 1) * W + x0)
    let P11 : F := m.getGridProbabilityMap ((y0 + 1) * W + x0 + 1)
    (interpMapValue m u (x, y)).1 =
        ((P00 * (1 - fx) + P10 * fx) * (1 - fy)) + ((P01 * (1 - fx) + P11 * fx) * fy) ∧
      (0 ≤ fx ∧ fx < 1) ∧ (0 ≤ fy ∧ fy < 1) ∧
      (P00 = 1 → P10 = 0 → P01 = 0 → P11 = 0 → x = 1 / 2 → y = 1 / 2 →
        (interpMapValue m u (x, y)).1 = 1 / 4) := by
  intro x0 y0 fx fy W P00 P10 P01 P11
  have hval : (interpMapValue m u (x, y)).1 =
      ((P00 * (1 - fx) + P10 * fx) * (1 - fy)) + ((P01 * (1 - fx) + P11 * fx) * fy) := by
    rw [interpMapValue_coherent m u (x, y) hin hc]
    simp only [castInt_of_nonneg x hx, castInt_of_nonneg y hy, bilinear]
    have e1 : Int.floor y * m.getSizeX + Int.floor x + m.getSizeX = (y0 + 1) * W + x0 := by
      simp only [x0, y0, W]; ring
    rw [e1]
  refine ⟨hval, ⟨?_, ?_⟩, ⟨?_, ?_⟩, ?_⟩
  · exact sub_nonneg.mpr (Int.floor_le x)
  · have := Int.lt_floor_add_one x
    simp only [fx, x0]; linarith
  · exact sub_nonneg.mpr (Int.floor_le y)
  · have := Int.lt_floor_add_one y
    simp only [fy, y0]; linarith
  · intro h00 h10 h01 h11 ex ey
    rw [hval, h00, h10, h01, h11]
    have fxe : fx = 1 / 2 := by
      have h0 : Int.floor x = 0 := by
        rw [ex, Int.floor_eq_iff]; norm_num
      simp only [fx, x0, h0, ex]; norm_num
    have fye : fy = 1 / 2 := by
      have h0 : Int.floor y = 0 := by
        rw [ey, Int.floor_eq_iff]; norm_num
      simp only [fy, y0, h0, ey]; norm_num
    rw [fxe, fye]; norm_num

theorem interpMapValue_bilinear_witness :
    (cornerMap ℚ).pointOutOfMapBounds (1 / 2, 1 / 2) = false ∧
      (interpMapValue (cornerMap ℚ) (freshUtil ℚ) (1 / 2, 1 / 2)).1 = 1 / 4 := by
  have hin : (cornerMap ℚ).pointOutOfMapBounds (1 / 2, 1 / 2) = false := by
    simp [cornerMap]; norm_num
  have hf : Int.floor ((2 : ℚ)⁻¹) = 0 := by rw [Int.floor_eq_iff]; norm_num
  refine ⟨hin, ?_⟩
  have h := interpMapValue_bilinear (cornerMap ℚ) (freshUtil ℚ) (1 / 2) (1 / 2) hin
    (by norm_num) (by norm_num) (freshUtil_coherent _)
  exact h.2.2.2 (by simp [hf, cornerMap]) (by simp [hf, cornerMap]) (by simp [hf, cornerMap])
    (by simp [hf, cornerMap]) rfl rfl

/-- In bounds, `interpMapValueWithDerivatives` is the four corner fetches followed by the
closed-form value and gradient. -/
theorem interpMapValueWithDerivatives_inBounds (m : OccGridMap F) (u : OccGridMapUtil F)
    (coords : F × F) (hin : m.pointOutOfMapBounds coords = false) :
    interpMapValueWithDerivatives m u coords =
      (let u1 := loadCorners m u (castInt coords.2 * m.getSizeX + castInt coords.1) m.getSizeX
       let fx : F := coords.1 - (castInt coords.1 : F)
       let fy : F := coords.2 - (castInt coords.2 : F)
       (![bilinear (u1.intensities 0) (u1.intensities 1) (u1.intensities 2) (u1.intensities 3)
            fx fy,
          -(((u1.intensities 0 - u1.intensities 1) * (1 - fy)) +
            ((u1.intensities 2 - u1.intensities 3) * fy)),
          -(((u1.intensities 0 - u1.intensities 2) * (1 - fx)) +
            ((u1.intensities 1 - u1.intensities 3) * fx))], u1)) := by
  simp only [interpMapValueWithDerivatives, hin, loadCorners, bilinear]
  rfl

/-- C2: for every point that the map reports as out of bounds, `interpMapValue` returns 0
and `interpMapValueWithDerivatives` returns `(0, 0, 0)`; both are total functions, both
leave the members (cache and corner buffer) exactly as they were, and their results are the
same for every other map and cache that report the point out of bounds, so neither depends
on any cache entry or map cell. -/
theorem outOfBounds_sentinel (m : OccGridMap F) (u : OccGridMapUtil F) (coords : F × F)
    (hout : m.pointOutOfMapBounds coords = true) :
    interpMapValue m u coords = (0, u) ∧
      interpMapValueWithDerivatives m u coords = (![0, 0, 0], u) ∧
      ∀ (m' : OccGridMap F) (u' : OccGridMapUtil F), m'.pointOutOfMapBounds coords = true →
        (interpMapValue m' u' coords).1 = (interpMapValue m u coords).1 ∧
        (interpMapValueWithDerivatives m' u' coords).1 =
          (interpMapValueWithDerivatives m u coords).1 := by
  refine ⟨by simp [interpMapValue, hout], by simp [interpMapValueWithDerivatives, hout], ?_⟩
  intro m' u' hout'
  simp [interpMapValue, interpMapValueWithDerivatives, hout, hout']

theorem outOfBounds_sentinel_witness :
    (cornerMap ℚ).pointOutOfMapBounds (-1, 5) = true ∧
      interpMapValue (cornerMap ℚ) (freshUtil ℚ) (-1, 5) = (0, freshUtil ℚ) ∧
      interpMapValueWithDerivatives (cornerMap ℚ) (freshUtil ℚ) (-1, 5) =
        (![0, 0, 0], freshUtil ℚ) :=
  have hout : (cornerMap ℚ).pointOutOfMapBounds (-1, 5) = true := by simp [cornerMap]
  ⟨hout, (outOfBounds_sentinel (cornerMap ℚ) (freshUtil ℚ) (-1, 5) hout).1,
    (outOfBounds_sentinel (cornerMap ℚ) (freshUtil ℚ) (-1, 5) hout).2.1⟩

/-- C4: from the same map and the same members, the first component of
`interpMapValueWithDerivatives p` equals `interpMapValue p`, and the two calls leave the
members (hence the cache) in the same state; this holds for every point, in particular for
every in-bounds one. -/
theorem interpMapValueWithDerivatives_value (m : OccGridMap F) (u : OccGridMapUtil F)
    (coords : F × F) :
    (interpMapValueWithDerivatives m u coords).1 0 = (interpMapValue m u coords).1 ∧
      (interpMapValueWithDerivatives m u coords).2 = (interpMapValue m u coords).2 := by
  cases hb : m.pointOutOfMapBounds coords with
  | true => simp [interpMapValue, interpMapValueWithDerivatives, hb]
  | false =>
    rw [interpMapValueWithDerivatives_inBounds m u coords hb, interpMapValue_inBounds m u coords hb]
    simp

theorem castInt_intCast (n : Int) : castInt (n : F) = n := by
  unfold castInt
  split <;> simp

/-- C5: for an in-bounds point whose coordinates are the integers `(x0, y0)` and a cache
coherent with the map, `interpMapValue` returns the map value at flat index `y0*W + x0`,
whatever the other cells of the map hold. -/
theorem interpMapValue_integer (m : OccGridMap F) (u : OccGridMapUtil F) (x0 y0 : Int)
    (hin : m.pointOutOfMapBounds ((x0 : F), (y0 : F)) = false)
    (hc : CacheCoherent m u.cacheMethod) :
    (interpMapValue m u ((x0 : F), (y0 : F))).1 =
      m.getGridProbabilityMap (y0 * m.getSizeX + x0) := by
  rw [interpMapValue_coherent m u _ hin hc]
  simp [castInt_intCast, bilinear]

theorem interpMapValue_integer_witness :
    (cornerMap ℚ).pointOutOfMapBounds (((2 : Int) : ℚ), ((1 : Int) : ℚ)) = false ∧
      (interpMapValue (cornerMap ℚ) (freshUtil ℚ) (((2 : Int) : ℚ), ((1 : Int) : ℚ))).1 =
        (cornerMap ℚ).getGridProbabilityMap (1 * (cornerMap ℚ).getSizeX + 2) :=
  have hin : (cornerMap ℚ).pointOutOfMapBounds (((2 : Int) : ℚ), ((1 : Int) : ℚ)) = false := by
    simp [cornerMap]; norm_num
  ⟨hin, interpMapValue_integer (cornerMap ℚ) (freshUtil ℚ) 2 1 hin (freshUtil_coherent _)⟩

/-- With a coherent cache the vector returned in bounds is computed from the map cells. -/
theorem interpMapValueWithDerivatives_coherent (m : OccGridMap F) (u : OccGridMapUtil F)
    (coords : F × F) (hin : m.pointOutOfMapBounds coords = false)
    (hc : CacheCoherent m u.cacheMethod) :
    (interpMapValueWithDerivatives m u coords).1 =
      (let index := castInt coords.2 * m.getSizeX + castInt coords.1
       let P00 := m.getGridProbabilityMap index
       let P10 := m.getGridProbabilityMap (index + 1)
       let P01 := m.getGridProbabilityMap (index + m.getSizeX)
       let P11 := m.getGridProbabilityMap (index + m.getSizeX + 1)
       let fx : F := coords.1 - (castInt coords.1 : F)
       let fy : F := coords.2 - (castInt coords.2 : F)
       ![bilinear P00 P10 P01 P11 fx fy,
         -(((P00 - P10) * (1 - fy)) + ((P01 - P11) * fy)),
         -(((P00 - P01) * (1 - fx)) + ((P10 - P11) * fx))]) := by
  rw [interpMapValueWithDerivatives_inBounds m u coords hin]
  simp only [loadCorners_intensities m u _ _ hc]
  simp

/-- C6: if every cell of the map holds `c` and the cache is coherent with the map, then at
every in-bounds point `interpMapValue` returns `c` and `interpMapValueWithDerivatives`
returns `(c, 0, 0)`. -/
theorem uniform_map (m : OccGridMap F) (u : OccGridMapUtil F) (c : F) (coords : F × F)
    (hu : ∀ i : Int, m.getGridProbabilityMap i = c)
    (hc : CacheCoherent m u.cacheMethod)
    (hin : m.pointOutOfMapBounds coords = false) :
    (interpMapValue m u coords).1 = c ∧
      (interpMapValueWithDerivatives m u coords).1 = ![c, 0, 0] := by
  rw [interpMapValue_coherent m u _ hin hc, interpMapValueWithDerivatives_coherent m u _ hin hc]
  simp only [hu, bilinear]
  constructor
  · ring
  · simp only [sub_self, zero_mul, add_zero, neg_zero]
    have e : ∀ a b : F, (c * (1 - a) + c * a) * (1 - b) + (c * (1 - a) + c * a) * b = c := by
      intro a b; ring
    rw [e]

theorem uniform_map_witness :
    (∀ i : Int, (uniformMap ℚ (1 / 2)).getGridProbabilityMap i = 1 / 2) ∧
      (uniformMap ℚ (1 / 2)).pointOutOfMapBounds (5 / 4, 7 / 3) = false ∧
      (interpMapValue (uniformMap ℚ (1 / 2)) (freshUtil ℚ) (5 / 4, 7 / 3)).1 = 1 / 2 ∧
      (interpMapValueWithDerivatives (uniformMap ℚ (1 / 2)) (freshUtil ℚ) (5 / 4, 7 / 3)).1 =
        ![1 / 2, 0, 0] :=
  have hu : ∀ i : Int, (uniformMap ℚ (1 / 2)).getGridProbabilityMap i = 1 / 2 := fun _ => rfl
  have hin : (uniformMap ℚ (1 / 2)).pointOutOfMapBounds (5 / 4, 7 / 3) = false := by
    simp [uniformMap]; norm_num
  ⟨hu, hin, uniform_map (uniformMap ℚ (1 / 2)) (freshUtil ℚ) (1 / 2) (5 / 4, 7 / 3) hu
    (freshUtil_coherent _) hin⟩

/-! ## The gradient of the interpolant -/

theorem bilinear_hasDerivAt_fst (P00 P10 P01 P11 fx fy : ℝ) :
    HasDerivAt (fun t : ℝ => bilinear P00 P10 P01 P11 t fy)
      (-(((P00 - P10) * (1 - fy)) + ((P01 - P11) * fy))) fx := by
  have e : (fun t : ℝ => bilinear P00 P10 P01 P11 t fy) =
      fun t : ℝ => (P00 * (1 - fy) + P01 * fy) +
        (-(((P00 - P10) * (1 - fy)) + ((P01 - P11) * fy))) * t := by
    funext t; unfold bilinear; ring
  rw [e]
  simpa using ((hasDerivAt_id fx).const_mul
    (-(((P00 - P10) * (1 - fy)) + ((P01 - P11) * fy)))).const_add (P00 * (1 - fy) + P01 * fy)

theorem bilinear_hasDerivAt_snd (P00 P10 P01 P11 fx fy : ℝ) :
    HasDerivAt (fun t : ℝ => bilinear P00 P10 P01 P11 fx t)
      (-(((P00 - P01) * (1 - fx)) + ((P10 - P11) * fx))) fy := by
  have e : (fun t : ℝ => bilinear P00 P10 P01 P11 fx t) =
      fun t : ℝ => (P00 * (1 - fx) + P10 * fx) +
        (-(((P00 - P01) * (1 - fx)) + ((P10 - P11) * fx))) * t := by
    funext t; unfold bilinear; ring
  rw [e]
  simpa using ((hasDerivAt_id fy).const_mul
    (-(((P00 - P01) * (1 - fx)) + ((P10 - P11) * fx)))).const_add (P00 * (1 - fx) + P10 * fx)

/-- C3: for an in-bounds point, let `P00, P10, P01, P11` be the corner values the call
fetched and `fx, fy` the fractional offsets. The vector returned by
`interpMapValueWithDerivatives` is `(B(fx, fy), -(dx1*(1-fy) + dx2*fy), -(dy1*(1-fx) + dy2*fx))`
with `B` the bilinear interpolant and `dx1 = P00-P10`, `dx2 = P01-P11`, `dy1 = P00-P01`,
`dy2 = P10-P11`, and its second and third components are the partial derivatives of `B` with
respect to `fx` (that is, x) and `fy` (that is, y) at `(fx, fy)`. -/
theorem interpMapValueWithDerivatives_gradient (m : OccGridMap ℝ) (u : OccGridMapUtil ℝ)
    (coords : ℝ × ℝ) (hin : m.pointOutOfMapBounds coords = false) :
    let r := interpMapValueWithDerivatives m u coords
    let P00 : ℝ := r.2.intensities 0
    let P10 : ℝ := r.2.intensities 1
    let P01 : ℝ := r.2.intensities 2
    let P11 : ℝ := r.2.intensities 3
    let fx : ℝ := coords.1 - (castInt coords.1 : ℝ)
    let fy : ℝ := coords.2 - (castInt coords.2 : ℝ)
    let dx1 : ℝ := P00 - P10
    let dx2 : ℝ := P01 - P11
    let dy1 : ℝ := P00 - P01
    let dy2 : ℝ := P10 - P11
    r.1 0 = (P00 * (1 - fx) + P10 * fx) * (1 - fy) + (P01 * (1 - fx) + P11 * fx) * fy ∧
      r.1 1 = -(dx1 * (1 - fy) + dx2 * fy) ∧
      r.1 2 = -(dy1 * (1 - fx) + dy2 * fx) ∧
      HasDerivAt
        (fun t : ℝ => (P00 * (1 - t) + P10 * t) * (1 - fy) + (P01 * (1 - t) + P11 * t) * fy)
        (r.1 1) fx ∧
      HasDerivAt
        (fun t : ℝ => (P00 * (1 - fx) + P10 * fx) * (1 - t) + (P01 * (1 - fx) + P11 * fx) * t)
        (r.1 2) fy := by
  intro r P00 P10 P01 P11 fx fy dx1 dx2 dy1 dy2
  have hr : r = _ := interpMapValueWithDerivatives_inBounds m u coords hin
  have h0 : r.1 0 = bilinear P00 P10 P01 P11 fx fy := by
    simp only [P00, P10, P01, P11, fx, fy, hr]; rfl
  have h1 : r.1 1 = -(dx1 * (1 - fy) + dx2 * fy) := by
    simp only [P00, P10, P01, P11, dx1, dx2, fx, fy, hr]; rfl
  have h2 : r.1 2 = -(dy1 * (1 - fx) + dy2 * fx) := by
    simp only [P00, P10, P01, P11, dy1, dy2, fx, fy, hr]; rfl
  refine ⟨h0, h1, h2, ?_, ?_⟩
  · rw [h1]; exact bilinear_hasDerivAt_fst P00 P10 P01 P11 fx fy
  · rw [h2]; exact bilinear_hasDerivAt_snd P00 P10 P01 P11 fx fy

theorem interpMapValueWithDerivatives_gradient_witness :
    (cornerMap ℝ).pointOutOfMapBounds (1 / 2, 1 / 2) = false ∧
      (let r := interpMapValueWithDerivatives (cornerMap ℝ) (freshUtil ℝ) (1 / 2, 1 / 2)
       let fx : ℝ := 1 / 2 - (castInt (1 / 2 : ℝ) : ℝ)
       let fy : ℝ := 1 / 2 - (castInt (1 / 2 : ℝ) : ℝ)
       HasDerivAt
          (fun t : ℝ => (r.2.intensities 0 * (1 - t) + r.2.intensities 1 * t) * (1 - fy) +
            (r.2.intensities 2 * (1 - t) + r.2.intensities 3 * t) * fy) (r.1 1) fx ∧
        HasDerivAt
          (fun t : ℝ => (r.2.intensities 0 * (1 - fx) + r.2.intensities 1 * fx) * (1 - t) +
            (r.2.intensities 2 * (1 - fx) + r.2.intensities 3 * fx) * t) (r.1 2) fy) :=
  have hin : (cornerMap ℝ).pointOutOfMapBounds (1 / 2, 1 / 2) = false := by
    simp [cornerMap]; norm_num
  ⟨hin, (interpMapValueWithDerivatives_gradient (cornerMap ℝ) (freshUtil ℝ) (1 / 2, 1 / 2)
    hin).2.2.2⟩

/-! ## The Gauss-Newton system -/

theorem getTransformForState_apply (T : Trig F) (pose : Fin 3 → F) (p : F × F) :
    (getTransformForState T pose).apply p = poseTransform T pose p := by
  simp only [getTransformForState, Affine2f.apply, poseTransform, Prod.mk.injEq]
  constructor <;> ring

theorem hessianDerivsStep_eq (T : Trig F) (m : OccGridMap F) (pose : Fin 3 → F)
    (H : Matrix (Fin 3) (Fin 3) F) (g : Fin 3 → F) (u : OccGridMapUtil F) (p : F × F) :
    hessianDerivsStep m (getTransformForState T pose) (T.sin (pose 2)) (T.cos (pose 2))
        (H, g, u) p =
      (let r := interpMapValueWithDerivatives m u (poseTransform T pose p)
       (H + upperOuter (jacobianRow T pose p r.1),
        g + (1 - r.1 0) • jacobianRow T pose p r.1, r.2)) := by
  simp only [hessianDerivsStep, getTransformForState_apply]
  refine Prod.ext ?_ (Prod.ext ?_ rfl)
  · ext a b
    fin_cases a <;> fin_cases b <;>
      simp [setCoeff, upperOuter, jacobianRow, sqr]
  · funext a
    fin_cases a <;> simp [jacobianRow, Function.update] <;> ring

theorem foldl_hessianDerivsStep (T : Trig F) (m : OccGridMap F) (pose : Fin 3 → F)
    (pts : List (F × F)) (H : Matrix (Fin 3) (Fin 3) F) (g : Fin 3 → F)
    (u : OccGridMapUtil F) :
    pts.foldl (hessianDerivsStep m (getTransformForState T pose) (T.sin (pose 2))
        (T.cos (pose 2))) (H, g, u) =
      (let ds := interpSeqWithDerivatives m u (pts.map (poseTransform T pose))
       let rows := List.zipWith (jacobianRow T pose) pts ds.1
       (H + (rows.map upperOuter).sum,
        g + (List.zipWith (fun (d J : Fin 3 → F) => (1 - d 0) • J) ds.1 rows).sum, ds.2)) := by
  induction pts generalizing H g u with
  | nil => simp [interpSeqWithDerivatives]
  | cons p ps ih =>
    rw [List.foldl_cons, hessianDerivsStep_eq, ih]
    simp only [List.map_cons, interpSeqWithDerivatives, List.zipWith_cons_cons, List.sum_cons,
      add_assoc]

theorem mirrorLower_add (A B : Matrix (Fin 3) (Fin 3) F) :
    mirrorLower (A + B) = mirrorLower A + mirrorLower B := by
  ext a b
  fin_cases a <;> fin_cases b <;> simp [mirrorLower, setCoeff]

theorem mirrorLower_zero : mirrorLower (0 : Matrix (Fin 3) (Fin 3) F) = 0 := by
  ext a b
  fin_cases a <;> fin_cases b <;> simp [mirrorLower, setCoeff]

theorem mirrorLower_upperOuter (J : Fin 3 → F) :
    mirrorLower (upperOuter J) = Matrix.vecMulVec J J := by
  ext a b
  fin_cases a <;> fin_cases b <;>
    simp [mirrorLower, setCoeff, upperOuter, Matrix.vecMulVec_apply] <;> ring

theorem mirrorLower_sum (rows : List (Fin 3 → F)) :
    mirrorLower (rows.map upperOuter).sum = (rows.map fun J => Matrix.vecMulVec J J).sum := by
  induction rows with
  | nil => simpa using mirrorLower_zero
  | cons J Js ih => simp [mirrorLower_add, mirrorLower_upperOuter, ih]

/-- Closed form of `getCompleteHessianDerivs`: sums over the scan of outer products and of
residual-weighted rows. -/
theorem getCompleteHessianDerivs_eq (T : Trig F) (m : OccGridMap F) (u : OccGridMapUtil F)
    (pose : Fin 3 → F) (pts : DataContainer F) :
    getCompleteHessianDerivs T m u pose pts =
      (let ds := interpSeqWithDerivatives m u (pts.map (poseTransform T pose))
       let rows := List.zipWith (jacobianRow T pose) pts ds.1
       ((rows.map fun J => Matrix.vecMulVec J J).sum,
        (List.zipWith (fun (d J : Fin 3 → F) => (1 - d 0) • J) ds.1 rows).sum, ds.2)) := by
  unfold getCompleteHessianDerivs
  simp only [foldl_hessianDerivsStep, zero_add]
  refine Prod.ext ?_ rfl
  exact mirrorLower_sum _

theorem outerSum_apply (L : List (Fin 3 → F)) (a b : Fin 3) :
    (L.map fun J => Matrix.vecMulVec J J).sum a b = (L.map fun J => J a * J b).sum := by
  induction L with
  | nil => simp
  | cons x xs ih => simp [Matrix.add_apply, Matrix.vecMulVec_apply, ih]

/-- C7: for every pose `(x, y, θ)` and scan, with `(M_i, gx_i, gy_i)` the results of the
consecutive calls `interpMapValueWithDerivatives(T(pose) p_i)`,
`T(pose) p = (x + cos θ·px − sin θ·py, y + sin θ·px + cos θ·py)`, `r_i = 1 − M_i` and
`J_i = (gx_i, gy_i, (−sin θ·px − cos θ·py)·gx_i + (cos θ·px − sin θ·py)·gy_i)`,
`getCompleteHessianDerivs` returns `g = Σ r_i · J_i` and `H = Σ J_i J_iᵀ`, all nine entries. -/
theorem getCompleteHessianDerivs_sums (T : Trig F) (m : OccGridMap F) (u : OccGridMapUtil F)
    (pose : Fin 3 → F) (pts : DataContainer F) :
    let ds := (interpSeqWithDerivatives m u (pts.map fun p =>
      (pose 0 + T.cos (pose 2) * p.1 - T.sin (pose 2) * p.2,
        pose 1 + T.sin (pose 2) * p.1 + T.cos (pose 2) * p.2))).1
    let J : List (Fin 3 → F) := List.zipWith (fun (p : F × F) (d : Fin 3 → F) =>
      ![d 1, d 2,
        (-T.sin (pose 2) * p.1 - T.cos (pose 2) * p.2) * d 1 +
          (T.cos (pose 2) * p.1 - T.sin (pose 2) * p.2) * d 2]) pts ds
    let r : List F := ds.map fun d => 1 - d 0
    (getCompleteHessianDerivs T m u pose pts).2.1 =
        (List.zipWith (fun (ri : F) (Ji : Fin 3 → F) => ri • Ji) r J).sum ∧
      (getCompleteHessianDerivs T m u pose pts).1 =
        (J.map fun Ji => Matrix.vecMulVec Ji Ji).sum ∧
      ∀ a b : Fin 3, (getCompleteHessianDerivs T m u pose pts).1 a b =
        (J.map fun Ji => Ji a * Ji b).sum := by
  intro ds J r
  have h := getCompleteHessianDerivs_eq T m u pose pts
  have hg : (getCompleteHessianDerivs T m u pose pts).2.1 =
      (List.zipWith (fun (ri : F) (Ji : Fin 3 → F) => ri • Ji) r J).sum := by
    rw [h]
    simp only [r, J, ds, List.zipWith_map_left]
    rfl
  have hH : (getCompleteHessianDerivs T m u pose pts).1 =
      (J.map fun Ji => Matrix.vecMulVec Ji Ji).sum := by
    rw [h]; rfl
  refine ⟨hg, hH, ?_⟩
  intro a b
  rw [hH]
  exact outerSum_apply J a b

theorem outerSum_quadratic (L : List (Fin 3 → F)) (v : Fin 3 → F) :
    Matrix.dotProduct v ((L.map fun J => Matrix.vecMulVec J J).sum.mulVec v) =
      (L.map fun J => (Matrix.dotProduct J v) ^ 2).sum := by
  induction L with
  | nil => simp
  | cons x xs ih =>
    simp only [List.map_cons, List.sum_cons, Matrix.add_mulVec, Matrix.dotProduct_add, ih]
    congr 1
    simp only [Matrix.dotProduct, Matrix.mulVec, Fin.sum_univ_three, Matrix.vecMulVec_apply]
    ring

theorem list_sum_sq_nonneg (L : List F) (h : ∀ x ∈ L, 0 ≤ x) : 0 ≤ L.sum := by
  induction L with
  | nil => simp
  | cons x xs ih =>
    rw [List.sum_cons]
    exact add_nonneg (h x (List.mem_cons_self _ _))
      (ih fun y hy => h y (List.mem_cons_of_mem _ hy))

/-- C8: for every pose and every scan (non-empty ones in particular) the matrix `H`
returned by `getCompleteHessianDerivs` is symmetric, `H(i,j) = H(j,i)`, and positive
semi-definite, `vᵀ H v ≥ 0` for every 3-vector `v`, in exact arithmetic. -/
theorem getCompleteHessianDerivs_symm_psd (T : Trig F) (m : OccGridMap F)
    (u : OccGridMapUtil F) (pose : Fin 3 → F) (pts : DataContainer F) :
    let H := (getCompleteHessianDerivs T m u pose pts).1
    (∀ i j : Fin 3, H i j = H j i) ∧ H.transpose = H ∧
      ∀ v : Fin 3 → F, 0 ≤ Matrix.dotProduct v (H.mulVec v) := by
  intro H
  have hH : H = _ := congrArg Prod.fst (getCompleteHessianDerivs_eq T m u pose pts)
  simp only at hH
  have hs : ∀ i j : Fin 3, H i j = H j i := by
    intro i j
    rw [hH, outerSum_apply, outerSum_apply]
    congr 2
    funext J
    exact mul_comm _ _
  refine ⟨hs, ?_, ?_⟩
  · ext i j
    exact hs j i
  · intro v
    rw [hH, outerSum_quadratic]
    apply list_sum_sq_nonneg
    intro x hx
    obtain ⟨J, _, rfl⟩ := List.mem_map.mp hx
    exact sq_nonneg _

/-! ## Likelihood and covariance -/

theorem foldl_residual (m : OccGridMap F) (tr : F × F → F × F) (pts : List (F × F)) (a : F)
    (u : OccGridMapUtil F) :
    pts.foldl (fun (acc : F × OccGridMapUtil F) (p : F × F) =>
        ((acc.1 + (1 - (interpMapValue m acc.2 (tr p)).1), (interpMapValue m acc.2 (tr p)).2) :
          F × OccGridMapUtil F)) (a, u) =
      (a + ((interpSeq m u (pts.map tr)).1.map fun M => 1 - M).sum,
        (interpSeq m u (pts.map tr)).2) := by
  induction pts generalizing a u with
  | nil => simp [interpSeq]
  | cons p ps ih =>
    rw [List.foldl_cons, ih]
    simp only [List.map_cons, interpSeq, List.sum_cons, add_assoc]

theorem getResidualForState_eq (T : Trig F) (m : OccGridMap F) (u : OccGridMapUtil F)
    (state : Fin 3 → F) (pts : DataContainer F) :
    getResidualForState T m u state pts =
      (((interpSeq m u (pts.map (poseTransform T state))).1.map fun M => 1 - M).sum,
        (interpSeq m u (pts.map (poseTransform T state))).2) := by
  unfold getResidualForState
  have h := foldl_residual m (poseTransform T state) pts 0 u
  rw [zero_add] at h
  rw [← h]
  simp only [getTransformForState_apply]

theorem getLikelihoodForState_eq (T : Trig F) (m : OccGridMap F) (u : OccGridMapUtil F)
    (state : Fin 3 → F) (pts : DataContainer F) (hne : pts ≠ []) :
    getLikelihoodForState T m u state pts =
      (some (likelihoodSpec T m u pts state).1, (likelihoodSpec T m u pts state).2) := by
  have hlen : (pts.length : F) ≠ 0 :=
    Nat.cast_ne_zero.mpr (fun h => hne (List.length_eq_zero.mp h))
  simp only [getLikelihoodForState, getLikelihoodForResidual, getResidualForState_eq,
    likelihoodSpec, Int.cast_natCast, if_neg hlen]

theorem foldl_add_eq_sum {M ι : Type} [AddCommMonoid M] (f : ι → M) (L : List ι) (init : M) :
    L.foldl (fun acc i => acc + f i) init = init + (L.map f).sum := by
  induction L generalizing init with
  | nil => simp
  | cons x xs ih => simp [ih, add_assoc]

theorem finRange_seven : List.finRange 7 = [0, 1, 2, 3, 4, 5, 6] := by decide

theorem vec3_eta (v : Fin 3 → F) : ![v 0, v 1, v 2] = v := by
  funext i
  fin_cases i <;> rfl

theorem zipWith_map_map {α β γ ι : Type} (g : α → β → γ) (a : ι → α) (b : ι → β) (L : List ι) :
    List.zipWith g (L.map a) (L.map b) = L.map fun i => g (a i) (b i) := by
  induction L with
  | nil => rfl
  | cons x xs ih => simp [ih]

theorem smul_foldl_eq_sum {ι : Type} (lk : ι → F) (sp : ι → Fin 3 → F) (S : F) (L : List ι) :
    (1 / S) • L.foldl (fun mean i => mean + lk i • sp i) 0 =
      (L.map fun i => (lk i / S) • sp i).sum := by
  rw [foldl_add_eq_sum, zero_add]
  induction L with
  | nil => simp
  | cons x xs ih =>
    rw [List.map_cons, List.sum_cons, smul_add, ih, List.map_cons, List.sum_cons, smul_smul,
      one_div_mul_eq_div]

theorem covLoops_eq {ι : Type} (lk : ι → F) (sp : ι → Fin 3 → F) (L : List ι) :
    L.foldl (fun cov i =>
        cov + (lk i * (1 / (L.map lk).sum)) •
          Matrix.vecMulVec
            (sp i - (1 / (L.map lk).sum) • L.foldl (fun mean i => mean + lk i • sp i) 0)
            (sp i - (1 / (L.map lk).sum) • L.foldl (fun mean i => mean + lk i • sp i) 0)) 0 =
      weightedCovariance (L.map sp) (L.map lk) := by
  rw [foldl_add_eq_sum, zero_add, smul_foldl_eq_sum]
  simp only [weightedCovariance, List.map_map, zipWith_map_map, Function.comp, mul_one_div]

/-- Closed form of `getCovarianceForPose` on a non-empty scan. -/
theorem getCovarianceForPose_eq (T : Trig F) (m : OccGridMap F) (u : OccGridMapUtil F)
    (mapPose : Fin 3 → F) (pts : DataContainer F) (hne : pts ≠ []) :
    getCovarianceForPose T m u mapPose pts =
      (let ls := likelihoodsSpec T m pts u (sigmaPoses mapPose)
       (if ls.1.sum = 0 then none else some (weightedCovariance (sigmaPoses mapPose) ls.1),
        ls.2)) := by
  unfold getCovarianceForPose
  simp only [getLikelihoodForState_eq T m _ _ pts hne, sigmaPoses, likelihoodsSpec]
  generalize likelihoodSpec T m u pts ![mapPose 0 + 1.5, mapPose 1, mapPose 2] = r0
  generalize likelihoodSpec T m r0.2 pts ![mapPose 0 - 1.5, mapPose 1, mapPose 2] = r1
  generalize likelihoodSpec T m r1.2 pts ![mapPose 0, mapPose 1 + 1.5, mapPose 2] = r2
  generalize likelihoodSpec T m r2.2 pts ![mapPose 0, mapPose 1 - 1.5, mapPose 2] = r3
  generalize likelihoodSpec T m r3.2 pts ![mapPose 0, mapPose 1, mapPose 2 + 0.05] = r4
  generalize likelihoodSpec T m r4.2 pts ![mapPose 0, mapPose 1, mapPose 2 - 0.05] = r5
  generalize likelihoodSpec T m r5.2 pts ![mapPose 0, mapPose 1, mapPose 2] = r6
  have hl : [r0.1, r1.1, r2.1, r3.1, r4.1, r5.1, r6.1] =
      (List.finRange 7).map (![r0.1, r1.1, r2.1, r3.1, r4.1, r5.1, r6.1] : Fin 7 → F) := by
    rw [finRange_seven]; rfl
  have hs : [![mapPose 0 + 1.5, mapPose 1, mapPose 2], ![mapPose 0 - 1.5, mapPose 1, mapPose 2],
      ![mapPose 0, mapPose 1 + 1.5, mapPose 2], ![mapPose 0, mapPose 1 - 1.5, mapPose 2],
      ![mapPose 0, mapPose 1, mapPose 2 + 0.05], ![mapPose 0, mapPose 1, mapPose 2 - 0.05],
      ![mapPose 0, mapPose 1, mapPose 2]] =
      (List.finRange 7).map (![![mapPose 0 + 1.5, mapPose 1, mapPose 2],
        ![mapPose 0 - 1.5, mapPose 1, mapPose 2], ![mapPose 0, mapPose 1 + 1.5, mapPose 2],
        ![mapPose 0, mapPose 1 - 1.5, mapPose 2], ![mapPose 0, mapPose 1, mapPose 2 + 0.05],
        ![mapPose 0, mapPose 1, mapPose 2 - 0.05], mapPose] : Fin 7 → Fin 3 → F) := by
    rw [finRange_seven]
    simp only [List.map_cons, List.map_nil]
    congr 6
    exact congrArg (fun v => [v]) (vec3_eta mapPose)
  rw [hl, hs, Fin.sum_univ_def, covLoops_eq]
  split <;> rfl

theorem sum_map_div (l : List F) (S : F) : (l.map fun li => li / S).sum = l.sum / S := by
  induction l with
  | nil => simp
  | cons x xs ih => simp [ih, add_div]

theorem likelihoodsSpec_length (T : Trig F) (m : OccGridMap F) (pts : List (F × F))
    (u : OccGridMapUtil F) (sigmas : List (Fin 3 → F)) :
    (likelihoodsSpec T m pts u sigmas).1.length = sigmas.length := by
  induction sigmas generalizing u with
  | nil => rfl
  | cons s ss ih => simp [likelihoodsSpec, ih]

/-- C9: for every pose `(x, y, θ)` and non-empty scan, `getCovarianceForPose` works on the
seven sigma poses `(x±1.5, y, θ)`, `(x, y±1.5, θ)`, `(x, y, θ±0.05)`, `(x, y, θ)`; with
`l_i = 1 − (Σ_p (1 − interpMapValue(T(sigma_i) p)))/numPoints` their likelihoods (this is
what `getLikelihoodForState` returns for any pose) and `S` the sum of the seven, if `S ≠ 0`
the weights `w_i = l_i / S` sum to 1 and the call returns
`Σ w_i · (sigma_i − mean)(sigma_i − mean)ᵀ` with `mean = Σ w_i · sigma_i`. -/
theorem getCovarianceForPose_sigma (T : Trig F) (m : OccGridMap F) (u : OccGridMapUtil F)
    (x y theta : F) (pts : DataContainer F) (hne : pts ≠ []) :
    let sigma : List (Fin 3 → F) :=
      [![x + 1.5, y, theta], ![x - 1.5, y, theta], ![x, y + 1.5, theta], ![x, y - 1.5, theta],
       ![x, y, theta + 0.05], ![x, y, theta - 0.05], ![x, y, theta]]
    let l : List F := (likelihoodsSpec T m pts u sigma).1
    let S : F := l.sum
    let w : List F := l.map fun li => li / S
    let mean : Fin 3 → F := (List.zipWith (fun (wi : F) (si : Fin 3 → F) => wi • si) w sigma).sum
    l.length = 7 ∧
      (∀ (u' : OccGridMapUtil F) (s : Fin 3 → F),
        getLikelihoodForState T m u' s pts =
          (let vals := interpSeq m u' (pts.map fun p =>
              (s 0 + T.cos (s 2) * p.1 - T.sin (s 2) * p.2,
                s 1 + T.sin (s 2) * p.1 + T.cos (s 2) * p.2))
           (some (1 - (vals.1.map fun M => 1 - M).sum / (pts.length : F)), vals.2)) ∧
        getLikelihoodForState T m u' s pts =
          (some (likelihoodSpec T m u' pts s).1, (likelihoodSpec T m u' pts s).2)) ∧
      (S ≠ 0 →
        w.sum = 1 ∧
        (getCovarianceForPose T m u ![x, y, theta] pts).1 =
          some (List.zipWith (fun (wi : F) (si : Fin 3 → F) =>
            wi • Matrix.vecMulVec (si - mean) (si - mean)) w sigma).sum) := by
  intro sigma l S w mean
  refine ⟨by simp [l, sigma, likelihoodsSpec_length], ?_, ?_⟩
  · intro u' s
    have h := getLikelihoodForState_eq T m u' s pts hne
    exact ⟨h, h⟩
  intro hS
  refine ⟨?_, ?_⟩
  · simp only [w, sum_map_div]
    exact div_self hS
  · have h := getCovarianceForPose_eq T m u ![x, y, theta] pts hne
    have hσ : sigmaPoses ![x, y, theta] = sigma := by simp [sigmaPoses, sigma]
    rw [hσ] at h
    rw [h]
    simp only
    rw [if_neg hS]
    rfl

theorem interpMapValue_preserves_coherent (m : OccGridMap F) (u : OccGridMapUtil F)
    (coords : F × F) (hc : CacheCoherent m u.cacheMethod) :
    CacheCoherent m (interpMapValue m u coords).2.cacheMethod := by
  cases hb : m.pointOutOfMapBounds coords with
  | true => simpa [interpMapValue, hb] using hc
  | false =>
    rw [interpMapValue_inBounds m u coords hb]
    exact loadCorners_coherent m u _ _ hc

theorem likelihoodSpec_origin (T : Trig F) (m : OccGridMap F) (u : OccGridMapUtil F)
    (sigma : Fin 3 → F) :
    likelihoodSpec T m u [(0, 0)] sigma = interpMapValue m u (sigma 0, sigma 1) := by
  simp [likelihoodSpec, interpSeq, poseTransform]

theorem likelihoodSpec_origin_uniform (T : Trig F) (m : OccGridMap F) (u : OccGridMapUtil F)
    (sigma : Fin 3 → F) (c : F) (hu : ∀ i : Int, m.getGridProbabilityMap i = c)
    (hc : CacheCoherent m u.cacheMethod)
    (hin : m.pointOutOfMapBounds (sigma 0, sigma 1) = false) :
    (likelihoodSpec T m u [(0, 0)] sigma).1 = c ∧
      CacheCoherent m (likelihoodSpec T m u [(0, 0)] sigma).2.cacheMethod := by
  rw [likelihoodSpec_origin]
  refine ⟨?_, interpMapValue_preserves_coherent m u _ hc⟩
  rw [interpMapValue_coherent m u _ hin hc]
  simp only [hu, bilinear]
  ring

theorem likelihoodsSpec_origin_uniform (T : Trig F) (m : OccGridMap F) (c : F)
    (hu : ∀ i : Int, m.getGridProbabilityMap i = c) (sigmas : List (Fin 3 → F))
    (u : OccGridMapUtil F) (hc : CacheCoherent m u.cacheMethod)
    (hin : ∀ s ∈ sigmas, m.pointOutOfMapBounds (s 0, s 1) = false) :
    (likelihoodsSpec T m [(0, 0)] u sigmas).1 = sigmas.map fun _ => c := by
  induction sigmas generalizing u with
  | nil => rfl
  | cons s ss ih =>
    have h := likelihoodSpec_origin_uniform T m u s c hu hc (hin s (List.mem_cons_self _ _))
    simp only [likelihoodsSpec, List.map_cons, h.1]
    rw [ih _ h.2 fun t ht => hin t (List.mem_cons_of_mem _ ht)]

theorem exampleLikelihoods :
    (likelihoodsSpec (⟨Real.sin, Real.cos⟩ : Trig ℝ) (uniformMap ℝ (1 / 2)) [(0, 0)] (freshUtil ℝ)
      [![3 / 2 + 1.5, 3 / 2, 0], ![3 / 2 - 1.5, 3 / 2, 0], ![3 / 2, 3 / 2 + 1.5, 0],
       ![3 / 2, 3 / 2 - 1.5, 0], ![3 / 2, 3 / 2, 0 + 0.05], ![3 / 2, 3 / 2, 0 - 0.05],
       ![3 / 2, 3 / 2, 0]]).1 = [1 / 2, 1 / 2, 1 / 2, 1 / 2, 1 / 2, 1 / 2, 1 / 2] := by
  rw [likelihoodsSpec_origin_uniform _ (uniformMap ℝ (1 / 2)) (1 / 2) (fun _ => rfl) _ _
    (freshUtil_coherent _)]
  · rfl
  · intro s hs
    simp only [List.mem_cons, List.mem_singleton, List.not_mem_nil, or_false] at hs
    rcases hs with rfl | rfl | rfl | rfl | rfl | rfl | rfl <;>
      simp [uniformMap] <;> norm_num

theorem getCovarianceForPose_sigma_witness :
    ([(0, 0)] : DataContainer ℝ) ≠ [] ∧
      (likelihoodsSpec (⟨Real.sin, Real.cos⟩ : Trig ℝ) (uniformMap ℝ (1 / 2)) [(0, 0)]
        (freshUtil ℝ)
        [![3 / 2 + 1.5, 3 / 2, 0], ![3 / 2 - 1.5, 3 / 2, 0], ![3 / 2, 3 / 2 + 1.5, 0],
         ![3 / 2, 3 / 2 - 1.5, 0], ![3 / 2, 3 / 2, 0 + 0.05], ![3 / 2, 3 / 2, 0 - 0.05],
         ![3 / 2, 3 / 2, 0]]).1.sum ≠ 0 ∧
      ∃ C, (getCovarianceForPose (⟨Real.sin, Real.cos⟩ : Trig ℝ) (uniformMap ℝ (1 / 2))
        (freshUtil ℝ) ![3 / 2, 3 / 2, 0] [(0, 0)]).1 = some C :=
  have hS : (likelihoodsSpec (⟨Real.sin, Real.cos⟩ : Trig ℝ) (uniformMap ℝ (1 / 2)) [(0, 0)]
        (freshUtil ℝ)
        [![3 / 2 + 1.5, 3 / 2, 0], ![3 / 2 - 1.5, 3 / 2, 0], ![3 / 2, 3 / 2 + 1.5, 0],
         ![3 / 2, 3 / 2 - 1.5, 0], ![3 / 2, 3 / 2, 0 + 0.05], ![3 / 2, 3 / 2, 0 - 0.05],
         ![3 / 2, 3 / 2, 0]]).1.sum ≠ 0 := by
    rw [exampleLikelihoods]; norm_num
  ⟨by simp, hS, _,
    ((getCovarianceForPose_sigma (⟨Real.sin, Real.cos⟩ : Trig ℝ) (uniformMap ℝ (1 / 2))
      (freshUtil ℝ) (3 / 2) (3 / 2) 0 [(0, 0)] (by simp)).2.2 hS).2⟩

theorem weightedSum_outer_transpose (mean : Fin 3 → F) (w : List F) (sigmas : List (Fin 3 → F)) :
    ((List.zipWith (fun (wi : F) (si : Fin 3 → F) =>
        wi • Matrix.vecMulVec (si - mean) (si - mean)) w sigmas).sum).transpose =
      (List.zipWith (fun (wi : F) (si : Fin 3 → F) =>
        wi • Matrix.vecMulVec (si - mean) (si - mean)) w sigmas).sum := by
  induction w generalizing sigmas with
  | nil => simp
  | cons a as ih =>
    cases sigmas with
    | nil => simp
    | cons s ss =>
      simp only [List.zipWith_cons_cons, List.sum_cons, Matrix.transpose_add, ih,
        Matrix.transpose_smul]
      congr 2
      ext i j
      simp [Matrix.vecMulVec_apply, mul_comm]

theorem weightedCovariance_transpose (sigmas : List (Fin 3 → F)) (l : List F) :
    (weightedCovariance sigmas l).transpose = weightedCovariance sigmas l := by
  unfold weightedCovariance
  exact weightedSum_outer_transpose _ _ _

theorem getCovMatrixWorldCoordsFrom_indep (A B : Matrix (Fin 3) (Fin 3) F) (m : OccGridMap F)
    (covMatMap : Matrix (Fin 3) (Fin 3) F) :
    getCovMatrixWorldCoordsFrom A m covMatMap = getCovMatrixWorldCoordsFrom B m covMatMap := by
  ext i j
  fin_cases i <;> fin_cases j <;> simp [getCovMatrixWorldCoordsFrom, setCoeff]

theorem getCovMatrixWorldCoords_transpose (m : OccGridMap F)
    (covMatMap : Matrix (Fin 3) (Fin 3) F) :
    (getCovMatrixWorldCoords m covMatMap).transpose = getCovMatrixWorldCoords m covMatMap := by
  ext i j
  fin_cases i <;> fin_cases j <;>
    simp [getCovMatrixWorldCoords, getCovMatrixWorldCoordsFrom, setCoeff]

theorem getCovarianceForPose_empty (T : Trig F) (m : OccGridMap F) (u : OccGridMapUtil F)
    (mapPose : Fin 3 → F) :
    (getCovarianceForPose T m u mapPose []).1 = none := by
  simp [getCovarianceForPose, getLikelihoodForState, getLikelihoodForResidual]

/-- C10 (amended): for every pose and every non-empty scan whose seven sigma-point
likelihoods have a non-zero sum, `getCovarianceForPose` returns a matrix and that matrix is
symmetric; `getCovMatrixWorldCoords` returns a symmetric matrix for every input matrix,
symmetric or not. -/
theorem covariance_symmetric (T : Trig F) (m : OccGridMap F) (u : OccGridMapUtil F)
    (pose : Fin 3 → F) (pts : DataContainer F) (hne : pts ≠ [])
    (hS : (likelihoodsSpec T m pts u (sigmaPoses pose)).1.sum ≠ 0) :
    (∃ C : Matrix (Fin 3) (Fin 3) F,
        (getCovarianceForPose T m u pose pts).1 = some C ∧ C.transpose = C) ∧
      ∀ (m' : OccGridMap F) (A : Matrix (Fin 3) (Fin 3) F),
        (getCovMatrixWorldCoords m' A).transpose = getCovMatrixWorldCoords m' A := by
  refine ⟨⟨weightedCovariance (sigmaPoses pose)
    (likelihoodsSpec T m pts u (sigmaPoses pose)).1, ?_, weightedCovariance_transpose _ _⟩,
    fun m' A => getCovMatrixWorldCoords_transpose m' A⟩
  rw [getCovarianceForPose_eq T m u pose pts hne]
  simp only
  rw [if_neg hS]

theorem likelihoodsSpec_origin_outOfBounds (T : Trig F) (m : OccGridMap F)
    (sigmas : List (Fin 3 → F)) (u : OccGridMapUtil F)
    (hout : ∀ s ∈ sigmas, m.pointOutOfMapBounds (s 0, s 1) = true) :
    (likelihoodsSpec T m [(0, 0)] u sigmas).1 = sigmas.map fun _ => 0 := by
  induction sigmas generalizing u with
  | nil => rfl
  | cons s ss ih =>
    have h : interpMapValue m u (s 0, s 1) = (0, u) := by
      simp [interpMapValue, hout s (List.mem_cons_self _ _)]
    simp only [likelihoodsSpec, List.map_cons, likelihoodSpec_origin, h]
    rw [ih _ fun t ht => hout t (List.mem_cons_of_mem _ ht)]

/-- C10 (counterexample): on the 4×4 map `cornerMap`, `getCovarianceForPose` returns no
symmetric matrix for the empty scan at pose `(0, 0, 0)` (the likelihood divides by the point
count 0), nor for the one-point scan `[(0, 0)]` at pose `(10, 10, 0)` (all seven sigma poses
put the point outside the map, every likelihood is 0 and `1 / likelihoods.sum()` divides by
zero). -/
theorem getCovarianceForPose_not_always_symmetric :
    (¬ ∃ C : Matrix (Fin 3) (Fin 3) ℝ,
        (getCovarianceForPose (⟨Real.sin, Real.cos⟩ : Trig ℝ) (cornerMap ℝ) (freshUtil ℝ)
          ![0, 0, 0] []).1 = some C ∧ C.transpose = C) ∧
      ¬ ∃ C : Matrix (Fin 3) (Fin 3) ℝ,
        (getCovarianceForPose (⟨Real.sin, Real.cos⟩ : Trig ℝ) (cornerMap ℝ) (freshUtil ℝ)
          ![10, 10, 0] [(0, 0)]).1 = some C ∧ C.transpose = C := by
  constructor
  · rintro ⟨C, hC, _⟩
    rw [getCovarianceForPose_empty] at hC
    exact Option.noConfusion hC
  · rintro ⟨C, hC, _⟩
    rw [getCovarianceForPose_eq _ _ _ _ _ (by simp)] at hC
    simp only at hC
    rw [likelihoodsSpec_origin_outOfBounds] at hC
    · simp [sigmaPoses] at hC
    · intro s hs
      simp only [sigmaPoses, List.mem_cons, List.mem_singleton, List.not_mem_nil, or_false] at hs
      rcases hs with rfl | rfl | rfl | rfl | rfl | rfl | rfl <;>
        simp [cornerMap] <;> norm_num

theorem covariance_symmetric_witness :
    ([(0, 0)] : DataContainer ℝ) ≠ [] ∧
      (likelihoodsSpec (⟨Real.sin, Real.cos⟩ : Trig ℝ) (uniformMap ℝ (1 / 2)) [(0, 0)]
        (freshUtil ℝ) (sigmaPoses ![3 / 2, 3 / 2, 0])).1.sum ≠ 0 ∧
      (∃ C : Matrix (Fin 3) (Fin 3) ℝ,
        (getCovarianceForPose (⟨Real.sin, Real.cos⟩ : Trig ℝ) (uniformMap ℝ (1 / 2))
          (freshUtil ℝ) ![3 / 2, 3 / 2, 0] [(0, 0)]).1 = some C ∧ C.transpose = C) ∧
      (getCovMatrixWorldCoords (cornerMap ℝ) !![1, 2, 3; 4, 5, 6; 7, 8, 9]).transpose =
        getCovMatrixWorldCoords (cornerMap ℝ) !![1, 2, 3; 4, 5, 6; 7, 8, 9] :=
  have hS : (likelihoodsSpec (⟨Real.sin, Real.cos⟩ : Trig ℝ) (uniformMap ℝ (1 / 2)) [(0, 0)]
        (freshUtil ℝ) (sigmaPoses ![3 / 2, 3 / 2, 0])).1.sum ≠ 0 := by
    have e : sigmaPoses (![3 / 2, 3 / 2, 0] : Fin 3 → ℝ) =
        [![3 / 2 + 1.5, 3 / 2, 0], ![3 / 2 - 1.5, 3 / 2, 0], ![3 / 2, 3 / 2 + 1.5, 0],
         ![3 / 2, 3 / 2 - 1.5, 0], ![3 / 2, 3 / 2, 0 + 0.05], ![3 / 2, 3 / 2, 0 - 0.05],
         ![3 / 2, 3 / 2, 0]] := by
      simp [sigmaPoses]
    rw [e, exampleLikelihoods]; norm_num
  ⟨by simp, hS,
    (covariance_symmetric (⟨Real.sin, Real.cos⟩ : Trig ℝ) (uniformMap ℝ (1 / 2)) (freshUtil ℝ)
      ![3 / 2, 3 / 2, 0] [(0, 0)] (by simp) hS).1,
    (covariance_symmetric (⟨Real.sin, Real.cos⟩ : Trig ℝ) (uniformMap ℝ (1 / 2)) (freshUtil ℝ)
      ![3 / 2, 3 / 2, 0] [(0, 0)] (by simp) hS).2 (cornerMap ℝ) !![1, 2, 3; 4, 5, 6; 7, 8, 9]⟩

/-! ## World coordinates, cache reset, empty scans -/

theorem getCovMatrixWorldCoords_entries (m : OccGridMap F) (C : Matrix (Fin 3) (Fin 3) F) :
    getCovMatrixWorldCoords m C =
      !![C 0 0 * (m.getCellLength * m.getCellLength), C 1 0 * (m.getCellLength * m.getCellLength),
          C 2 0 * m.getCellLength;
        C 1 0 * (m.getCellLength * m.getCellLength), C 1 1 * (m.getCellLength * m.getCellLength),
          C 2 1 * m.getCellLength;
        C 2 0 * m.getCellLength, C 2 1 * m.getCellLength, C 2 2] := by
  ext i j
  fin_cases i <;> fin_cases j <;>
    simp [getCovMatrixWorldCoords, getCovMatrixWorldCoordsFrom, setCoeff, sqr]

/-- C11: for every symmetric 3×3 matrix `C` and cell length `L`, `getCovMatrixWorldCoords`
returns `D * C * D` with `D = diag(L, L, 1)`: the entries (0,0), (1,1), (0,1), (1,0) are
scaled by `L²`, the entries (0,2), (2,0), (1,2), (2,1) by `L`, and (2,2) is unchanged. -/
theorem getCovMatrixWorldCoords_scaling (m : OccGridMap F) (C : Matrix (Fin 3) (Fin 3) F)
    (hC : C.transpose = C) :
    let L : F := m.getCellLength
    let D : Matrix (Fin 3) (Fin 3) F := Matrix.diagonal ![L, L, 1]
    getCovMatrixWorldCoords m C = D * C * D ∧
      getCovMatrixWorldCoords m C =
        !![C 0 0 * L ^ 2, C 0 1 * L ^ 2, C 0 2 * L;
           C 1 0 * L ^ 2, C 1 1 * L ^ 2, C 1 2 * L;
           C 2 0 * L, C 2 1 * L, C 2 2] := by
  intro L D
  have h01 : C 1 0 = C 0 1 := by
    have := congrFun (congrFun hC 0) 1
    simpa [Matrix.transpose_apply] using this
  have h02 : C 2 0 = C 0 2 := by
    have := congrFun (congrFun hC 0) 2
    simpa [Matrix.transpose_apply] using this
  have h12 : C 2 1 = C 1 2 := by
    have := congrFun (congrFun hC 1) 2
    simpa [Matrix.transpose_apply] using this
  rw [getCovMatrixWorldCoords_entries]
  constructor
  · ext i j
    fin_cases i <;> fin_cases j <;>
      simp [D, L, Matrix.mul_apply, Fin.sum_univ_three, Matrix.diagonal_apply, h01, h02, h12] <;>
      ring
  · ext i j
    fin_cases i <;> fin_cases j <;> simp [L, h01, h02, h12, pow_two]

theorem getCovMatrixWorldCoords_scaling_witness :
    (!![2, 1, 3; 1, 5, 4; 3, 4, 7] : Matrix (Fin 3) (Fin 3) ℚ).transpose =
        !![2, 1, 3; 1, 5, 4; 3, 4, 7] ∧
      getCovMatrixWorldCoords (cornerMap ℚ) !![2, 1, 3; 1, 5, 4; 3, 4, 7] =
        Matrix.diagonal ![(cornerMap ℚ).getCellLength, (cornerMap ℚ).getCellLength, 1] *
          !![2, 1, 3; 1, 5, 4; 3, 4, 7] *
          Matrix.diagonal ![(cornerMap ℚ).getCellLength, (cornerMap ℚ).getCellLength, 1] :=
  have hC : (!![2, 1, 3; 1, 5, 4; 3, 4, 7] : Matrix (Fin 3) (Fin 3) ℚ).transpose =
      !![2, 1, 3; 1, 5, 4; 3, 4, 7] := by
    ext i j
    fin_cases i <;> fin_cases j <;> rfl
  ⟨hC, (getCovMatrixWorldCoords_scaling (cornerMap ℚ) !![2, 1, 3; 1, 5, 4; 3, 4, 7] hC).1⟩

theorem resetCachedData_coherent (m : OccGridMap F) (u : OccGridMapUtil F) :
    CacheCoherent m (resetCachedData u).cacheMethod := by
  intro i v h
  simp [resetCachedData, CacheMethod.resetCache, CacheMethod.containsCachedData] at h

/-- C12: for every member state (whatever its cache holds, stale values included) and every
in-bounds point, after `resetCachedData` no index is reported as cached, and
`interpMapValue` and `interpMapValueWithDerivatives` return the value and gradient computed
from the current map's four corner cells. -/
theorem reset_then_interpolate (m : OccGridMap F) (u : OccGridMapUtil F) (coords : F × F)
    (hin : m.pointOutOfMapBounds coords = false) :
    let index : Int := castInt coords.2 * m.getSizeX + castInt coords.1
    let P00 : F := m.getGridProbabilityMap index
    let P10 : F := m.getGridProbabilityMap (index + 1)
    let P01 : F := m.getGridProbabilityMap (index + m.getSizeX)
    let P11 : F := m.getGridProbabilityMap (index + m.getSizeX + 1)
    let fx : F := coords.1 - (castInt coords.1 : F)
    let fy : F := coords.2 - (castInt coords.2 : F)
    (∀ i : Int, (resetCachedData u).cacheMethod.containsCachedData i = none) ∧
      (interpMapValue m (resetCachedData u) coords).1 =
        (P00 * (1 - fx) + P10 * fx) * (1 - fy) + (P01 * (1 - fx) + P11 * fx) * fy ∧
      (interpMapValueWithDerivatives m (resetCachedData u) coords).1 =
        ![(P00 * (1 - fx) + P10 * fx) * (1 - fy) + (P01 * (1 - fx) + P11 * fx) * fy,
          -(((P00 - P10) * (1 - fy)) + ((P01 - P11) * fy)),
          -(((P00 - P01) * (1 - fx)) + ((P10 - P11) * fx))] := by
  intro index P00 P10 P01 P11 fx fy
  refine ⟨fun i => rfl, ?_, ?_⟩
  · rw [interpMapValue_coherent m _ coords hin (resetCachedData_coherent m u)]
    rfl
  · rw [interpMapValueWithDerivatives_coherent m _ coords hin (resetCachedData_coherent m u)]
    rfl

theorem reset_then_interpolate_witness :
    (cornerMap ℚ).pointOutOfMapBounds (0, 0) = false ∧
      (interpMapValue (cornerMap ℚ) (staleUtil ℚ) (0, 0)).1 = 0 ∧
      (interpMapValue (cornerMap ℚ) (resetCachedData (staleUtil ℚ)) (0, 0)).1 = 1 := by
  have hin : (cornerMap ℚ).pointOutOfMapBounds (0, 0) = false := by simp [cornerMap]
  refine ⟨hin, ?_, ?_⟩
  · rw [interpMapValue_inBounds _ _ _ hin]
    simp [loadCorners, loadIntensity, staleUtil, CacheMethod.containsCachedData,
      CacheMethod.cacheData, getUnfilteredGridPoint, bilinear, castInt, cornerMap]
  · rw [(reset_then_interpolate (cornerMap ℚ) (staleUtil ℚ) (0, 0) hin).2.1]
    simp [castInt, cornerMap]

/-- C15: for every pose, `getCompleteHessianDerivs` on the empty scan returns the zero
matrix, the zero vector and the members unchanged, and does so for every map and every
member state: neither the map nor the cache is consulted. -/
theorem getCompleteHessianDerivs_empty (T : Trig F) (m : OccGridMap F) (u : OccGridMapUtil F)
    (pose : Fin 3 → F) :
    getCompleteHessianDerivs T m u pose [] = (0, 0, u) ∧
      ∀ (m' : OccGridMap F) (u' : OccGridMapUtil F),
        (getCompleteHessianDerivs T m' u' pose []).1 = 0 ∧
        (getCompleteHessianDerivs T m' u' pose []).2.1 = 0 ∧
        (getCompleteHessianDerivs T m' u' pose []).2.2 = u' := by
  have h : ∀ (m' : OccGridMap F) (u' : OccGridMapUtil F),
      getCompleteHessianDerivs T m' u' pose [] = (0, 0, u') := by
    intro m' u'
    rw [getCompleteHessianDerivs_eq]
    simp [interpSeqWithDerivatives]
  refine ⟨h m u, fun m' u' => ?_⟩
  rw [h m' u']
  exact ⟨rfl, rfl, rfl⟩

theorem getLikelihoodForState_empty (T : Trig F) (m : OccGridMap F) (u : OccGridMapUtil F)
    (state : Fin 3 → F) :
    getLikelihoodForState T m u state [] = (none, u) := by
  simp [getLikelihoodForState, getLikelihoodForResidual, getResidualForState]

/-- C16: `getLikelihoodForResidual residual n` has a value exactly when `n ≠ 0`, and the
value is then `1 - residual / n`; on the empty scan `getResidualForState` returns 0,
`getLikelihoodForState` is the quotient of 0 by 0, which has no value, and
`getCovarianceForPose` has no result. -/
theorem likelihood_division_unguarded (T : Trig F) (m : OccGridMap F) (u : OccGridMapUtil F)
    (state : Fin 3 → F) (residual : F) (n : Int) :
    (getLikelihoodForResidual residual n = none ↔ n = 0) ∧
      (∀ v : F, getLikelihoodForResidual residual n = some v ↔
        (n ≠ 0 ∧ v = 1 - residual / (n : F))) ∧
      getResidualForState T m u state [] = (0, u) ∧
      getLikelihoodForState T m u state [] = (getLikelihoodForResidual 0 0, u) ∧
      getLikelihoodForState T m u state [] = (none, u) ∧
      (getCovarianceForPose T m u state []).1 = none := by
  refine ⟨?_, ?_, ?_, ?_, getLikelihoodForState_empty T m u state,
    getCovarianceForPose_empty T m u state⟩
  · by_cases hn : n = 0
    · simp [getLikelihoodForResidual, hn]
    · have : (n : F) ≠ 0 := Int.cast_ne_zero.mpr hn
      simp [getLikelihoodForResidual, hn, this]
  · intro v
    by_cases hn : n = 0
    · simp [getLikelihoodForResidual, hn]
    · have : (n : F) ≠ 0 := Int.cast_ne_zero.mpr hn
      simp [getLikelihoodForResidual, hn, this, eq_comm]
  · simp [getResidualForState]
  · simp [getLikelihoodForState, getLikelihoodForResidual, getResidualForState]

/-! ## Uniform maps -/

theorem interpMapValueWithDerivatives_preserves_coherent (m : OccGridMap F)
    (u : OccGridMapUtil F) (coords : F × F) (hc : CacheCoherent m u.cacheMethod) :
    CacheCoherent m (interpMapValueWithDerivatives m u coords).2.cacheMethod := by
  cases hb : m.pointOutOfMapBounds coords with
  | true => simpa [interpMapValueWithDerivatives, hb] using hc
  | false =>
    rw [interpMapValueWithDerivatives_inBounds m u coords hb]
    exact loadCorners_coherent m u _ _ hc

theorem interpMapValueWithDerivatives_uniform (m : OccGridMap F) (u : OccGridMapUtil F) (c : F)
    (coords : F × F) (hu : ∀ i : Int, m.getGridProbabilityMap i = c)
    (hc : CacheCoherent m u.cacheMethod) (hin : m.pointOutOfMapBounds coords = false) :
    (interpMapValueWithDerivatives m u coords).1 = ![c, 0, 0] := by
  rw [interpMapValueWithDerivatives_coherent m u _ hin hc]
  simp only [hu, bilinear, sub_self, zero_mul, add_zero, neg_zero]
  have e : ∀ a b : F, (c * (1 - a) + c * a) * (1 - b) + (c * (1 - a) + c * a) * b = c := by
    intro a b; ring
  rw [e]

theorem interpMapValueWithDerivatives_uniform_gradient (m : OccGridMap F)
    (u : OccGridMapUtil F) (c : F) (coords : F × F)
    (hu : ∀ i : Int, m.getGridProbabilityMap i = c) (hc : CacheCoherent m u.cacheMethod) :
    (interpMapValueWithDerivatives m u coords).1 1 = 0 ∧
      (interpMapValueWithDerivatives m u coords).1 2 = 0 := by
  cases hb : m.pointOutOfMapBounds coords with
  | true => simp [interpMapValueWithDerivatives, hb]
  | false => simp [interpMapValueWithDerivatives_uniform m u c coords hu hc hb]

theorem jacobianRow_zero (T : Trig F) (pose : Fin 3 → F) (p : F × F) (d : Fin 3 → F)
    (h1 : d 1 = 0) (h2 : d 2 = 0) : jacobianRow T pose p d = 0 := by
  funext k
  fin_cases k <;> simp [jacobianRow, h1, h2]

theorem uniform_sums_zero (T : Trig F) (m : OccGridMap F) (c : F) (pose : Fin 3 → F)
    (hu : ∀ i : Int, m.getGridProbabilityMap i = c) (pts : List (F × F))
    (u : OccGridMapUtil F) (hc : CacheCoherent m u.cacheMethod) :
    ((List.zipWith (jacobianRow T pose) pts
        (interpSeqWithDerivatives m u (pts.map (poseTransform T pose))).1).map
          fun J => Matrix.vecMulVec J J).sum = 0 ∧
      (List.zipWith (fun (d J : Fin 3 → F) => (1 - d 0) • J)
        (interpSeqWithDerivatives m u (pts.map (poseTransform T pose))).1
        (List.zipWith (jacobianRow T pose) pts
          (interpSeqWithDerivatives m u (pts.map (poseTransform T pose))).1)).sum = 0 := by
  induction pts generalizing u with
  | nil => simp [interpSeqWithDerivatives]
  | cons p ps ih =>
    have hg := interpMapValueWithDerivatives_uniform_gradient m u c (poseTransform T pose p) hu hc
    have hJ := jacobianRow_zero T pose p _ hg.1 hg.2
    have h := ih _ (interpMapValueWithDerivatives_preserves_coherent m u
      (poseTransform T pose p) hc)
    simp only [List.map_cons, interpSeqWithDerivatives, List.zipWith_cons_cons, List.sum_cons,
      hJ, h.1, h.2, smul_zero, add_zero]
    constructor
    · ext a b
      simp [Matrix.vecMulVec_apply]
    · trivial

/-- C13: if every cell of the map holds `c` and the cache is coherent with the map, then
for every pose and scan `getCompleteHessianDerivs` returns `g = 0` and `H = 0`, and at every
in-bounds point the interpolated value is `c`, the gradient `(0, 0)` and the residual
`1 - c`. -/
theorem uniform_map_zero_system (T : Trig F) (m : OccGridMap F) (u : OccGridMapUtil F) (c : F)
    (pose : Fin 3 → F) (pts : DataContainer F)
    (hu : ∀ i : Int, m.getGridProbabilityMap i = c) (hc : CacheCoherent m u.cacheMethod) :
    (getCompleteHessianDerivs T m u pose pts).2.1 = 0 ∧
      (getCompleteHessianDerivs T m u pose pts).1 = 0 ∧
      ∀ (u' : OccGridMapUtil F) (p : F × F), CacheCoherent m u'.cacheMethod →
        m.pointOutOfMapBounds p = false →
        (interpMapValue m u' p).1 = c ∧
        (interpMapValueWithDerivatives m u' p).1 = ![c, 0, 0] ∧
        1 - (interpMapValueWithDerivatives m u' p).1 0 = 1 - c := by
  have h := uniform_sums_zero T m c pose hu pts u hc
  rw [getCompleteHessianDerivs_eq]
  refine ⟨h.2, h.1, ?_⟩
  intro u' p hc' hin
  have hv := interpMapValueWithDerivatives_uniform m u' c p hu hc' hin
  refine ⟨?_, hv, by rw [hv]; rfl⟩
  rw [interpMapValue_coherent m u' p hin hc']
  simp only [hu, bilinear]
  ring

theorem uniform_map_zero_system_witness :
    (∀ i : Int, (uniformMap ℝ (1 / 2)).getGridProbabilityMap i = 1 / 2) ∧
      CacheCoherent (uniformMap ℝ (1 / 2)) (freshUtil ℝ).cacheMethod ∧
      (getTransformForState (⟨Real.sin, Real.cos⟩ : Trig ℝ) ![0, 0, 0]).apply (1, 1) = (1, 1) ∧
      (uniformMap ℝ (1 / 2)).pointOutOfMapBounds (1, 1) = false ∧
      (interpMapValue (uniformMap ℝ (1 / 2)) (freshUtil ℝ) (1, 1)).1 = 1 / 2 ∧
      (interpMapValueWithDerivatives (uniformMap ℝ (1 / 2)) (freshUtil ℝ) (1, 1)).1 =
        ![1 / 2, 0, 0] ∧
      1 - (interpMapValueWithDerivatives (uniformMap ℝ (1 / 2)) (freshUtil ℝ) (1, 1)).1 0 =
        1 - 1 / 2 ∧
      (getCompleteHessianDerivs (⟨Real.sin, Real.cos⟩ : Trig ℝ) (uniformMap ℝ (1 / 2))
        (freshUtil ℝ) ![0, 0, 0] [(1, 1)]).2.1 = 0 ∧
      (getCompleteHessianDerivs (⟨Real.sin, Real.cos⟩ : Trig ℝ) (uniformMap ℝ (1 / 2))
        (freshUtil ℝ) ![0, 0, 0] [(1, 1)]).1 = 0 :=
  have hu : ∀ i : Int, (uniformMap ℝ (1 / 2)).getGridProbabilityMap i = 1 / 2 := fun _ => rfl
  have hc : CacheCoherent (uniformMap ℝ (1 / 2)) (freshUtil ℝ).cacheMethod :=
    freshUtil_coherent _
  have hin : (uniformMap ℝ (1 / 2)).pointOutOfMapBounds (1, 1) = false := by
    simp [uniformMap]
  have ht : (getTransformForState (⟨Real.sin, Real.cos⟩ : Trig ℝ) ![0, 0, 0]).apply (1, 1) =
      (1, 1) := by
    simp [getTransformForState, Affine2f.apply]
  have h := uniform_map_zero_system (⟨Real.sin, Real.cos⟩ : Trig ℝ) (uniformMap ℝ (1 / 2))
    (freshUtil ℝ) (1 / 2) ![0, 0, 0] [(1, 1)] hu hc
  ⟨hu, hc, ht, hin, (h.2.2 (freshUtil ℝ) (1, 1) hc hin).1, (h.2.2 (freshUtil ℝ) (1, 1) hc hin).2.1,
    (h.2.2 (freshUtil ℝ) (1, 1) hc hin).2.2, h.1, h.2.1⟩

/-! ## Range of the interpolated value and of the likelihood -/

theorem blend_ge (a b lo t : F) (ha : lo ≤ a) (hb : lo ≤ b) (h0 : 0 ≤ t) (h1 : t ≤ 1) :
    lo ≤ a * (1 - t) + b * t := by
  have e : a * (1 - t) + b * t = lo + ((a - lo) * (1 - t) + (b - lo) * t) := by ring
  rw [e]
  have h2 : 0 ≤ (a - lo) * (1 - t) := mul_nonneg (sub_nonneg.mpr ha) (sub_nonneg.mpr h1)
  have h3 : 0 ≤ (b - lo) * t := mul_nonneg (sub_nonneg.mpr hb) h0
  linarith

theorem blend_le (a b hi t : F) (ha : a ≤ hi) (hb : b ≤ hi) (h0 : 0 ≤ t) (h1 : t ≤ 1) :
    a * (1 - t) + b * t ≤ hi := by
  have e : a * (1 - t) + b * t = hi - ((hi - a) * (1 - t) + (hi - b) * t) := by ring
  rw [e]
  have h2 : 0 ≤ (hi - a) * (1 - t) := mul_nonneg (sub_nonneg.mpr ha) (sub_nonneg.mpr h1)
  have h3 : 0 ≤ (hi - b) * t := mul_nonneg (sub_nonneg.mpr hb) h0
  linarith

theorem bilinear_ge (P00 P10 P01 P11 fx fy lo : F) (h00 : lo ≤ P00) (h10 : lo ≤ P10)
    (h01 : lo ≤ P01) (h11 : lo ≤ P11) (hx0 : 0 ≤ fx) (hx1 : fx ≤ 1) (hy0 : 0 ≤ fy)
    (hy1 : fy ≤ 1) : lo ≤ bilinear P00 P10 P01 P11 fx fy :=
  blend_ge _ _ lo fy (blend_ge _ _ lo fx h00 h10 hx0 hx1) (blend_ge _ _ lo fx h01 h11 hx0 hx1)
    hy0 hy1

theorem bilinear_le (P00 P10 P01 P11 fx fy hi : F) (h00 : P00 ≤ hi) (h10 : P10 ≤ hi)
    (h01 : P01 ≤ hi) (h11 : P11 ≤ hi) (hx0 : 0 ≤ fx) (hx1 : fx ≤ 1) (hy0 : 0 ≤ fy)
    (hy1 : fy ≤ 1) : bilinear P00 P10 P01 P11 fx fy ≤ hi :=
  blend_le _ _ hi fy (blend_le _ _ hi fx h00 h10 hx0 hx1) (blend_le _ _ hi fx h01 h11 hx0 hx1)
    hy0 hy1

theorem loadIntensity_unit (m : OccGridMap F) (u : OccGridMapUtil F) (index : Int) (k : Fin 4)
    (hmap : ∀ i : Int, 0 ≤ m.getGridProbabilityMap i ∧ m.getGridProbabilityMap i ≤ 1)
    (hc : CacheInUnit u.cacheMethod) :
    (0 ≤ (loadIntensity m u index k).intensities k ∧
        (loadIntensity m u index k).intensities k ≤ 1) ∧
      CacheInUnit (loadIntensity m u index k).cacheMethod ∧
      ∀ j : Fin 4, j ≠ k → (loadIntensity m u index k).intensities j = u.intensities j := by
  unfold loadIntensity
  cases hv : u.cacheMethod.containsCachedData index with
  | some val =>
    refine ⟨by simpa using hc index val hv, by simpa using hc, ?_⟩
    intro j hj
    simp [Function.update_noteq hj]
  | none =>
    refine ⟨by simpa [getUnfilteredGridPoint] using hmap index, ?_, ?_⟩
    · intro i v hiv
      simp only [CacheMethod.containsCachedData, CacheMethod.cacheData, getUnfilteredGridPoint,
        Function.update_same] at hiv
      by_cases hi : i = index
      · rw [if_pos hi] at hiv
        rw [← Option.some.inj hiv]
        exact hmap index
      · rw [if_neg hi] at hiv
        exact hc i v hiv
    · intro j hj
      simp [Function.update_noteq hj]

theorem loadCorners_unit (m : OccGridMap F) (u : OccGridMapUtil F) (index sizeX : Int)
    (hmap : ∀ i : Int, 0 ≤ m.getGridProbabilityMap i ∧ m.getGridProbabilityMap i ≤ 1)
    (hc : CacheInUnit u.cacheMethod) :
    (∀ k : Fin 4, 0 ≤ (loadCorners m u index sizeX).intensities k ∧
        (loadCorners m u index sizeX).intensities k ≤ 1) ∧
      CacheInUnit (loadCorners m u index sizeX).cacheMethod := by
  have h0 := loadIntensity_unit m u index 0 hmap hc
  have h1 := loadIntensity_unit m _ (index + 1) 1 hmap h0.2.1
  have h2 := loadIntensity_unit m _ (index + 1 + (sizeX - 1)) 2 hmap h1.2.1
  have h3 := loadIntensity_unit m _ (index + 1 + (sizeX - 1) + 1) 3 hmap h2.2.1
  refine ⟨?_, h3.2.1⟩
  intro k
  unfold loadCorners
  fin_cases k
  · simp only [Fin.zero_eta]
    rw [h3.2.2 0 (by decide), h2.2.2 0 (by decide), h1.2.2 0 (by decide)]
    exact h0.1
  · simp only [Fin.mk_one]
    rw [h3.2.2 1 (by decide), h2.2.2 1 (by decide)]
    exact h1.1
  · rw [h3.2.2 _ (by decide)]
    exact h2.1
  · exact h3.1

theorem interpMapValue_unit (m : OccGridMap F) (u : OccGridMapUtil F) (coords : F × F)
    (hmap : ∀ i : Int, 0 ≤ m.getGridProbabilityMap i ∧ m.getGridProbabilityMap i ≤ 1)
    (hc : CacheInUnit u.cacheMethod)
    (hoff : m.pointOutOfMapBounds coords = false →
      (0 ≤ fracOffset coords.1 ∧ fracOffset coords.1 ≤ 1) ∧
      (0 ≤ fracOffset coords.2 ∧ fracOffset coords.2 ≤ 1)) :
    (0 ≤ (interpMapValue m u coords).1 ∧ (interpMapValue m u coords).1 ≤ 1) ∧
      CacheInUnit (interpMapValue m u coords).2.cacheMethod := by
  cases hb : m.pointOutOfMapBounds coords with
  | true =>
    have e : interpMapValue m u coords = (0, u) := by simp [interpMapValue, hb]
    rw [e]
    exact ⟨⟨le_refl _, zero_le_one⟩, hc⟩
  | false =>
    have ho := hoff hb
    have hl := loadCorners_unit m u (castInt coords.2 * m.getSizeX + castInt coords.1)
      m.getSizeX hmap hc
    rw [interpMapValue_inBounds m u coords hb]
    refine ⟨⟨?_, ?_⟩, hl.2⟩
    · exact bilinear_ge _ _ _ _ _ _ 0 (hl.1 0).1 (hl.1 1).1 (hl.1 2).1 (hl.1 3).1
        ho.1.1 ho.1.2 ho.2.1 ho.2.2
    · exact bilinear_le _ _ _ _ _ _ 1 (hl.1 0).2 (hl.1 1).2 (hl.1 2).2 (hl.1 3).2
        ho.1.1 ho.1.2 ho.2.1 ho.2.2

theorem interpSeq_unit (m : OccGridMap F)
    (hmap : ∀ i : Int, 0 ≤ m.getGridProbabilityMap i ∧ m.getGridProbabilityMap i ≤ 1)
    (hoff : ∀ p : F × F, m.pointOutOfMapBounds p = false →
      (0 ≤ fracOffset p.1 ∧ fracOffset p.1 ≤ 1) ∧ (0 ≤ fracOffset p.2 ∧ fracOffset p.2 ≤ 1))
    (pts : List (F × F)) (u : OccGridMapUtil F) (hc : CacheInUnit u.cacheMethod) :
    (0 ≤ ((interpSeq m u pts).1.map fun M => 1 - M).sum ∧
        ((interpSeq m u pts).1.map fun M => 1 - M).sum ≤ (pts.length : F)) ∧
      CacheInUnit (interpSeq m u pts).2.cacheMethod := by
  induction pts generalizing u with
  | nil => simpa [interpSeq] using hc
  | cons p ps ih =>
    have h := interpMapValue_unit m u p hmap hc (hoff p)
    have h' := ih _ h.2
    simp only [interpSeq, List.map_cons, List.sum_cons, List.length_cons, Nat.cast_add,
      Nat.cast_one]
    refine ⟨⟨?_, ?_⟩, h'.2⟩
    · linarith [h.1.2, h'.1.1]
    · linarith [h.1.1, h'.1.2]

theorem getLikelihoodForState_unit (T : Trig F) (m : OccGridMap F) (u : OccGridMapUtil F)
    (state : Fin 3 → F) (pts : DataContainer F) (hne : pts ≠ [])
    (hmap : ∀ i : Int, 0 ≤ m.getGridProbabilityMap i ∧ m.getGridProbabilityMap i ≤ 1)
    (hc : CacheInUnit u.cacheMethod)
    (hoff : ∀ p : F × F, m.pointOutOfMapBounds p = false →
      (0 ≤ fracOffset p.1 ∧ fracOffset p.1 ≤ 1) ∧ (0 ≤ fracOffset p.2 ∧ fracOffset p.2 ≤ 1)) :
    ∃ l : F, (getLikelihoodForState T m u state pts).1 = some l ∧ 0 ≤ l ∧ l ≤ 1 := by
  rw [getLikelihoodForState_eq T m u state pts hne]
  refine ⟨_, rfl, ?_⟩
  have h := (interpSeq_unit m hmap hoff (pts.map (poseTransform T state)) u hc).1
  rw [List.length_map] at h
  have hn : (0 : F) < (pts.length : F) :=
    Nat.cast_pos.mpr (List.length_pos.mpr hne)
  simp only [likelihoodSpec]
  constructor
  · rw [sub_nonneg, div_le_one hn]
    exact h.2
  · have : 0 ≤ ((interpSeq m u (pts.map (poseTransform T state))).1.map fun M => 1 - M).sum /
        (pts.length : F) := div_nonneg h.1 hn.le
    linarith

theorem fracOffset_of_nonneg (x : F) (hx : 0 ≤ x) : 0 ≤ fracOffset x ∧ fracOffset x ≤ 1 := by
  unfold fracOffset
  rw [castInt_of_nonneg x hx]
  have h1 := Int.floor_le x
  have h2 := Int.lt_floor_add_one x
  constructor <;> linarith

theorem freshUtil_inUnit : CacheInUnit (freshUtil F).cacheMethod := by
  intro i v h
  simp [freshUtil, CacheMethod.containsCachedData] at h

theorem cornerMap_offsets (p : F × F) (h : (cornerMap F).pointOutOfMapBounds p = false) :
    (0 ≤ fracOffset p.1 ∧ fracOffset p.1 ≤ 1) ∧ (0 ≤ fracOffset p.2 ∧ fracOffset p.2 ≤ 1) := by
  simp only [cornerMap, decide_eq_false_iff_not, not_or, not_lt] at h
  exact ⟨fracOffset_of_nonneg _ h.1, fracOffset_of_nonneg _ h.2.2.1⟩

theorem resetCachedData_inUnit (u0 : OccGridMapUtil F) :
    CacheInUnit (resetCachedData u0).cacheMethod := by
  intro i v h
  simp [resetCachedData, CacheMethod.resetCache, CacheMethod.containsCachedData] at h

theorem cacheInUnit_of_coherent (m : OccGridMap F) (c : CacheMethod F)
    (hmap : ∀ i : Int, 0 ≤ m.getGridProbabilityMap i ∧ m.getGridProbabilityMap i ≤ 1)
    (hc : CacheCoherent m c) : CacheInUnit c := by
  intro i v h
  rw [hc i v h]
  exact hmap i

theorem cornerMap_unit (i : Int) :
    0 ≤ (cornerMap F).getGridProbabilityMap i ∧ (cornerMap F).getGridProbabilityMap i ≤ 1 := by
  by_cases h : i = 0 <;> simp [cornerMap, h]

/-- C17: for an in-bounds point whose fractional offsets lie in `[0, 1]`, the value of
`interpMapValue` lies between the minimum and the maximum of the four corner values it
read. Hence, if every map probability lies in `[0, 1]` (and so does every probability the
cache holds, as it does for a fresh, reset or coherent cache), the value and the residual
`1 - M` lie in `[0, 1]`, and, offsets of in-bounds points being in `[0, 1]`, the likelihood
of every non-empty scan exists and lies in `[0, 1]`. -/
theorem interpMapValue_range (m : OccGridMap F) (u : OccGridMapUtil F) (coords : F × F)
    (hin : m.pointOutOfMapBounds coords = false)
    (hx0 : 0 ≤ coords.1 - (castInt coords.1 : F)) (hx1 : coords.1 - (castInt coords.1 : F) ≤ 1)
    (hy0 : 0 ≤ coords.2 - (castInt coords.2 : F)) (hy1 : coords.2 - (castInt coords.2 : F) ≤ 1) :
    let r := interpMapValue m u coords
    let P00 : F := r.2.intensities 0
    let P10 : F := r.2.intensities 1
    let P01 : F := r.2.intensities 2
    let P11 : F := r.2.intensities 3
    (min (min P00 P10) (min P01 P11) ≤ r.1 ∧ r.1 ≤ max (max P00 P10) (max P01 P11)) ∧
      ((∀ i : Int, 0 ≤ m.getGridProbabilityMap i ∧ m.getGridProbabilityMap i ≤ 1) →
        CacheInUnit u.cacheMethod →
        (0 ≤ r.1 ∧ r.1 ≤ 1) ∧ (0 ≤ 1 - r.1 ∧ 1 - r.1 ≤ 1) ∧
        ((∀ p : F × F, m.pointOutOfMapBounds p = false →
            (0 ≤ p.1 - (castInt p.1 : F) ∧ p.1 - (castInt p.1 : F) ≤ 1) ∧
            (0 ≤ p.2 - (castInt p.2 : F) ∧ p.2 - (castInt p.2 : F) ≤ 1)) →
          ∀ (T : Trig F) (state : Fin 3 → F) (pts : DataContainer F), pts ≠ [] →
            ∃ l : F, (getLikelihoodForState T m u state pts).1 = some l ∧ 0 ≤ l ∧ l ≤ 1)) ∧
      ((∀ u0 : OccGridMapUtil F, CacheInUnit (resetCachedData u0).cacheMethod) ∧
        ((∀ i : Int, 0 ≤ m.getGridProbabilityMap i ∧ m.getGridProbabilityMap i ≤ 1) →
          CacheCoherent m u.cacheMethod → CacheInUnit u.cacheMethod)) := by
  intro r P00 P10 P01 P11
  have hr : r = _ := interpMapValue_inBounds m u coords hin
  have hv : r.1 = bilinear P00 P10 P01 P11 (coords.1 - (castInt coords.1 : F))
      (coords.2 - (castInt coords.2 : F)) := by
    simp only [P00, P10, P01, P11, hr]
  refine ⟨⟨?_, ?_⟩, ?_, resetCachedData_inUnit, cacheInUnit_of_coherent m u.cacheMethod⟩
  · rw [hv]
    exact bilinear_ge _ _ _ _ _ _ _
      ((min_le_left _ _).trans (min_le_left _ _)) ((min_le_left _ _).trans (min_le_right _ _))
      ((min_le_right _ _).trans (min_le_left _ _)) ((min_le_right _ _).trans (min_le_right _ _))
      hx0 hx1 hy0 hy1
  · rw [hv]
    exact bilinear_le _ _ _ _ _ _ _
      ((le_max_left _ _).trans (le_max_left _ _)) ((le_max_right _ _).trans (le_max_left _ _))
      ((le_max_left _ _).trans (le_max_right _ _)) ((le_max_right _ _).trans (le_max_right _ _))
      hx0 hx1 hy0 hy1
  · intro hmap hc
    have h := (interpMapValue_unit m u coords hmap hc fun _ => ⟨⟨hx0, hx1⟩, ⟨hy0, hy1⟩⟩).1
    refine ⟨h, ⟨by linarith [h.2], by linarith [h.1]⟩, ?_⟩
    intro hoff T state pts hne
    exact getLikelihoodForState_unit T m u state pts hne hmap hc hoff

theorem interpMapValue_range_witness :
    (cornerMap ℝ).pointOutOfMapBounds (1 / 2, 1 / 2) = false ∧
      (0 ≤ (1 / 2 : ℝ) - (castInt (1 / 2 : ℝ) : ℝ) ∧
        (1 / 2 : ℝ) - (castInt (1 / 2 : ℝ) : ℝ) ≤ 1) ∧
      (0 ≤ (interpMapValue (cornerMap ℝ) (freshUtil ℝ) (1 / 2, 1 / 2)).1 ∧
        (interpMapValue (cornerMap ℝ) (freshUtil ℝ) (1 / 2, 1 / 2)).1 ≤ 1) ∧
      ∃ l : ℝ, (getLikelihoodForState (⟨Real.sin, Real.cos⟩ : Trig ℝ) (cornerMap ℝ) (freshUtil ℝ)
        ![1 / 2, 1 / 2, 0] [(0, 0), (1, 0)]).1 = some l ∧ 0 ≤ l ∧ l ≤ 1 :=
  have hin : (cornerMap ℝ).pointOutOfMapBounds (1 / 2, 1 / 2) = false := by
    simp [cornerMap]; norm_num
  have ho : 0 ≤ (1 / 2 : ℝ) - (castInt (1 / 2 : ℝ) : ℝ) ∧
      (1 / 2 : ℝ) - (castInt (1 / 2 : ℝ) : ℝ) ≤ 1 :=
    fracOffset_of_nonneg (1 / 2 : ℝ) (by norm_num)
  have h := (interpMapValue_range (cornerMap ℝ) (freshUtil ℝ) (1 / 2, 1 / 2) hin ho.1 ho.2
    ho.1 ho.2).2.1 cornerMap_unit freshUtil_inUnit
  ⟨hin, ho, h.1, h.2.2 cornerMap_offsets (⟨Real.sin, Real.cos⟩ : Trig ℝ) ![1 / 2, 1 / 2, 0]
    [(0, 0), (1, 0)] (by simp)⟩

/-! ## Transparency of a coherent cache -/

theorem interpMapValue_eq_of_coherent (m : OccGridMap F) (u u0 : OccGridMapUtil F)
    (coords : F × F) (hc : CacheCoherent m u.cacheMethod) (hc0 : CacheCoherent m u0.cacheMethod) :
    (interpMapValue m u coords).1 = (interpMapValue m u0 coords).1 := by
  cases hb : m.pointOutOfMapBounds coords with
  | true => simp [interpMapValue, hb]
  | false =>
    rw [interpMapValue_coherent m u coords hb hc, interpMapValue_coherent m u0 coords hb hc0]

theorem interpMapValueWithDerivatives_eq_of_coherent (m : OccGridMap F)
    (u u0 : OccGridMapUtil F) (coords : F × F) (hc : CacheCoherent m u.cacheMethod)
    (hc0 : CacheCoherent m u0.cacheMethod) :
    (interpMapValueWithDerivatives m u coords).1 =
      (interpMapValueWithDerivatives m u0 coords).1 := by
  cases hb : m.pointOutOfMapBounds coords with
  | true => simp [interpMapValueWithDerivatives, hb]
  | false =>
    rw [interpMapValueWithDerivatives_coherent m u coords hb hc,
      interpMapValueWithDerivatives_coherent m u0 coords hb hc0]

theorem runQuery_coherent (m : OccGridMap F) (u u0 : OccGridMapUtil F) (q : Query F)
    (hc : CacheCoherent m u.cacheMethod) :
    CacheCoherent m (runQuery m u q).2.cacheMethod ∧
      (runQuery m u q).1 = (runQuery m (resetCachedData u0) q).1 := by
  cases q with
  | value coords =>
    exact ⟨interpMapValue_preserves_coherent m u coords hc,
      congrArg Sum.inl (interpMapValue_eq_of_coherent m u _ coords hc
        (resetCachedData_coherent m u0))⟩
  | withDerivatives coords =>
    exact ⟨interpMapValueWithDerivatives_preserves_coherent m u coords hc,
      congrArg Sum.inr (interpMapValueWithDerivatives_eq_of_coherent m u _ coords hc
        (resetCachedData_coherent m u0))⟩

/-- C18: if the cache is coherent with the map, then after any sequence of
`interpMapValue` / `interpMapValueWithDerivatives` calls on that map the cache is still
coherent, and every call of the sequence returns what the same call returns right after a
reset, when no index is cached and all four corners are read from the map. -/
theorem cache_transparent (m : OccGridMap F) (u : OccGridMapUtil F) (qs : List (Query F))
    (hc : CacheCoherent m u.cacheMethod) :
    CacheCoherent m (runQueries m u qs).2.cacheMethod ∧
      ∀ u0 : OccGridMapUtil F,
        (∀ i : Int, (resetCachedData u0).cacheMethod.containsCachedData i = none) ∧
        (runQueries m u qs).1 = qs.map fun q => (runQuery m (resetCachedData u0) q).1 := by
  induction qs generalizing u with
  | nil => exact ⟨hc, fun u0 => ⟨fun _ => rfl, rfl⟩⟩
  | cons q qs ih =>
    have h := ih (runQuery m u q).2 (runQuery_coherent m u u q hc).1
    refine ⟨h.1, fun u0 => ⟨fun _ => rfl, ?_⟩⟩
    simp only [runQueries, List.map_cons]
    rw [(h.2 u0).2, (runQuery_coherent m u u0 q hc).2]

theorem cache_transparent_witness :
    CacheCoherent (cornerMap ℚ) (freshUtil ℚ).cacheMethod ∧
      CacheCoherent (cornerMap ℚ)
        (runQueries (cornerMap ℚ) (freshUtil ℚ)
          [Query.value (1 / 2, 1 / 2), Query.withDerivatives (1 / 2, 1 / 2),
           Query.value (1 / 2, 1 / 2)]).2.cacheMethod ∧
      (runQueries (cornerMap ℚ) (freshUtil ℚ)
          [Query.value (1 / 2, 1 / 2), Query.withDerivatives (1 / 2, 1 / 2),
           Query.value (1 / 2, 1 / 2)]).1 =
        [Query.value (1 / 2, 1 / 2), Query.withDerivatives (1 / 2, 1 / 2),
          Query.value (1 / 2, 1 / 2)].map
          fun q => (runQuery (cornerMap ℚ) (resetCachedData (freshUtil ℚ)) q).1 :=
  have h := cache_transparent (cornerMap ℚ) (freshUtil ℚ)
    [Query.value (1 / 2, 1 / 2), Query.withDerivatives (1 / 2, 1 / 2),
      Query.value (1 / 2, 1 / 2)] (freshUtil_coherent _)
  ⟨freshUtil_coherent _, h.1, (h.2 (freshUtil ℚ)).2⟩

/-! ## The Jacobian of the pose transform -/

theorem transform_hasDerivAt_theta (x y theta px py : ℝ) :
    HasDerivAt (fun t : ℝ =>
        ((getTransformForState (⟨Real.sin, Real.cos⟩ : Trig ℝ) ![x, y, t]).apply (px, py)).1)
        (-Real.sin theta * px - Real.cos theta * py) theta ∧
      HasDerivAt (fun t : ℝ =>
        ((getTransformForState (⟨Real.sin, Real.cos⟩ : Trig ℝ) ![x, y, t]).apply (px, py)).2)
        (Real.cos theta * px - Real.sin theta * py) theta := by
  constructor
  · have h := (((Real.hasDerivAt_cos theta).mul_const px).add
      ((Real.hasDerivAt_sin theta).neg.mul_const py)).add_const x
    simp only [getTransformForState, Affine2f.apply, Matrix.cons_val_zero, Matrix.cons_val_one,
      Matrix.cons_val_two, Matrix.head_cons, Matrix.tail_cons]
    convert h using 1
    ring
  · have h := (((Real.hasDerivAt_sin theta).mul_const px).add
      ((Real.hasDerivAt_cos theta).mul_const py)).add_const y
    simp only [getTransformForState, Affine2f.apply, Matrix.cons_val_zero, Matrix.cons_val_one,
      Matrix.cons_val_two, Matrix.head_cons, Matrix.tail_cons]
    convert h using 1
    ring

theorem transform_hasDerivAt_xy (x y theta px py : ℝ) :
    (HasDerivAt (fun t : ℝ =>
        ((getTransformForState (⟨Real.sin, Real.cos⟩ : Trig ℝ) ![t, y, theta]).apply (px, py)).1)
        1 x ∧
      HasDerivAt (fun t : ℝ =>
        ((getTransformForState (⟨Real.sin, Real.cos⟩ : Trig ℝ) ![t, y, theta]).apply (px, py)).2)
        0 x) ∧
      HasDerivAt (fun t : ℝ =>
        ((getTransformForState (⟨Real.sin, Real.cos⟩ : Trig ℝ) ![x, t, theta]).apply (px, py)).1)
        0 y ∧
      HasDerivAt (fun t : ℝ =>
        ((getTransformForState (⟨Real.sin, Real.cos⟩ : Trig ℝ) ![x, t, theta]).apply (px, py)).2)
        1 y := by
  simp only [getTransformForState, Affine2f.apply, Matrix.cons_val_zero, Matrix.cons_val_one,
    Matrix.cons_val_two, Matrix.head_cons, Matrix.tail_cons]
  refine ⟨⟨?_, ?_⟩, ?_, ?_⟩
  · exact (hasDerivAt_id x).const_add _
  · exact hasDerivAt_const x _
  · exact hasDerivAt_const y _
  · exact (hasDerivAt_id y).const_add _

/-- C19: for every pose `(x, y, θ)` and sensor-frame point `(px, py)`, the coefficients
`-sin θ·px - cos θ·py` and `cos θ·px - sin θ·py` of `rotDeriv` are the derivatives with
respect to `θ` of the x and y coordinates of `getTransformForState(pose)` applied to the
point; the derivatives with respect to the pose's x and y are `(1, 0)` and `(0, 1)`; hence
`(gx, gy, rotDeriv) = (gx, gy) · d(T(pose) p)/d(pose)`, and this is the row the scan loop of
`getCompleteHessianDerivs` accumulates into `dTr`. -/
theorem yaw_column_chain_rule (x y theta px py : ℝ) :
    let T : Trig ℝ := ⟨Real.sin, Real.cos⟩
    let dxdtheta : ℝ := -Real.sin theta * px - Real.cos theta * py
    let dydtheta : ℝ := Real.cos theta * px - Real.sin theta * py
    let jac : Matrix (Fin 2) (Fin 3) ℝ := !![1, 0, dxdtheta; 0, 1, dydtheta]
    (HasDerivAt (fun t : ℝ => ((getTransformForState T ![x, y, t]).apply (px, py)).1)
        dxdtheta theta ∧
      HasDerivAt (fun t : ℝ => ((getTransformForState T ![x, y, t]).apply (px, py)).2)
        dydtheta theta) ∧
      (HasDerivAt (fun t : ℝ => ((getTransformForState T ![t, y, theta]).apply (px, py)).1) 1 x ∧
        HasDerivAt (fun t : ℝ => ((getTransformForState T ![t, y, theta]).apply (px, py)).2)
          0 x) ∧
      (HasDerivAt (fun t : ℝ => ((getTransformForState T ![x, t, theta]).apply (px, py)).1) 0 y ∧
        HasDerivAt (fun t : ℝ => ((getTransformForState T ![x, t, theta]).apply (px, py)).2)
          1 y) ∧
      (∀ gx gy : ℝ, ![gx, gy, dxdtheta * gx + dydtheta * gy] = Matrix.vecMul ![gx, gy] jac) ∧
      ∀ (m : OccGridMap ℝ) (H : Matrix (Fin 3) (Fin 3) ℝ) (g : Fin 3 → ℝ)
        (u : OccGridMapUtil ℝ),
        let d := (interpMapValueWithDerivatives m u
          ((getTransformForState T ![x, y, theta]).apply (px, py))).1
        (hessianDerivsStep m (getTransformForState T ![x, y, theta]) (T.sin theta) (T.cos theta)
            (H, g, u) (px, py)).2.1 =
          g + (1 - d 0) • Matrix.vecMul ![d 1, d 2] jac := by
  intro T dxdtheta dydtheta jac
  have hj : ∀ gx gy : ℝ,
      ![gx, gy, dxdtheta * gx + dydtheta * gy] = Matrix.vecMul ![gx, gy] jac := by
    intro gx gy
    funext k
    fin_cases k
    · simp [jac, Matrix.vecMul, Matrix.dotProduct, Fin.sum_univ_two]
    · simp [jac, Matrix.vecMul, Matrix.dotProduct, Fin.sum_univ_two]
    · simp [jac, Matrix.vecMul, Matrix.dotProduct, Fin.sum_univ_two]
      ring
  refine ⟨transform_hasDerivAt_theta x y theta px py, (transform_hasDerivAt_xy x y theta px py).1,
    (transform_hasDerivAt_xy x y theta px py).2, hj, ?_⟩
  intro m H g u d
  have h := hessianDerivsStep_eq T m ![x, y, theta] H g u (px, py)
  simp only [Matrix.cons_val_two, Matrix.tail_cons, Matrix.head_cons] at h
  rw [h]
  simp only [← getTransformForState_apply]
  rw [← hj]
  rfl

/-! ## Covariance for pairwise equal likelihoods -/

theorem weightedMean_pairs (pose : Fin 3 → F) (a b c d : F)
    (hS : [a, a, b, b, c, c, d].sum ≠ 0) :
    (List.zipWith (fun (wi : F) (si : Fin 3 → F) => wi • si)
      ([a, a, b, b, c, c, d].map fun li => li / [a, a, b, b, c, c, d].sum)
      (sigmaPoses pose)).sum = pose := by
  have hS' : [a, a, b, b, c, c, d].sum = a + (a + (b + (b + (c + (c + d))))) := by simp
  rw [hS'] at hS ⊢
  funext k
  fin_cases k
  · simp [sigmaPoses]
    generalize (1.5 : F) = δ
    field_simp
    ring
  · simp [sigmaPoses]
    generalize (1.5 : F) = δ
    field_simp
    ring
  · simp [sigmaPoses]
    generalize (5e-2 : F) = δ
    field_simp
    ring

theorem weightedCovariance_pairs (pose : Fin 3 → F) (a b c d : F)
    (hS : [a, a, b, b, c, c, d].sum ≠ 0) :
    weightedCovariance (sigmaPoses pose) [a, a, b, b, c, c, d] =
      Matrix.diagonal ![2 * a * 1.5 ^ 2 / [a, a, b, b, c, c, d].sum,
        2 * b * 1.5 ^ 2 / [a, a, b, b, c, c, d].sum,
        2 * c * 0.05 ^ 2 / [a, a, b, b, c, c, d].sum] := by
  unfold weightedCovariance
  simp only [weightedMean_pairs pose a b c d hS]
  generalize [a, a, b, b, c, c, d].sum = S at hS ⊢
  have e : sigmaPoses pose = [pose + ![1.5, 0, 0], pose - ![1.5, 0, 0], pose + ![0, 1.5, 0],
      pose - ![0, 1.5, 0], pose + ![0, 0, 0.05], pose - ![0, 0, 0.05], pose] := by
    simp only [sigmaPoses, List.cons.injEq, and_true]
    refine ⟨?_, ?_, ?_, ?_, ?_, ?_, ?_⟩ <;>
      (funext k; fin_cases k <;> simp)
  rw [e]
  simp only [List.map_cons, List.map_nil, List.zipWith_cons_cons, List.zipWith_nil_right,
    List.sum_cons, List.sum_nil, add_sub_cancel_left, sub_self, add_zero]
  ext i j
  fin_cases i <;> fin_cases j <;>
    simp [Matrix.vecMulVec_apply, Matrix.diagonal_apply, sub_eq_add_neg] <;> ring

theorem getCovarianceForPose_pairs (T : Trig F) (m : OccGridMap F) (u : OccGridMapUtil F)
    (pose : Fin 3 → F) (pts : DataContainer F) (a b c d : F) (hne : pts ≠ [])
    (hl : (likelihoodsSpec T m pts u (sigmaPoses pose)).1 = [a, a, b, b, c, c, d])
    (hS : [a, a, b, b, c, c, d].sum ≠ 0) :
    (getCovarianceForPose T m u pose pts).1 =
      some (Matrix.diagonal ![2 * a * 1.5 ^ 2 / [a, a, b, b, c, c, d].sum,
        2 * b * 1.5 ^ 2 / [a, a, b, b, c, c, d].sum,
        2 * c * 0.05 ^ 2 / [a, a, b, b, c, c, d].sum]) := by
  rw [getCovarianceForPose_eq T m u pose pts hne]
  simp only [hl]
  rw [if_neg hS, weightedCovariance_pairs pose a b c d hS]

/-- C20: for a non-empty scan whose sigma-pair likelihoods are equal, `l0 = l1 = a`,
`l2 = l3 = b`, `l4 = l5 = c` (and `l6 = d`), with non-zero sum `S`, the weighted mean of the
sigma poses is the input pose and `getCovarianceForPose` returns
`diag(2·a·1.5²/S, 2·b·1.5²/S, 2·c·0.05²/S)`; when all seven are equal the result is
`diag(4.5/7, 4.5/7, 0.005/7)`, whatever the pose, the scan and the map. -/
theorem covariance_symmetric_pairs (T : Trig F) (m : OccGridMap F) (u : OccGridMapUtil F)
    (pose : Fin 3 → F) (pts : DataContainer F) (a b c d : F) (hne : pts ≠ [])
    (hl : (likelihoodsSpec T m pts u (sigmaPoses pose)).1 = [a, a, b, b, c, c, d])
    (hS : a + a + b + b + c + c + d ≠ 0) :
    let S : F := a + a + b + b + c + c + d
    let w : List F := [a, a, b, b, c, c, d].map fun li => li / S
    (List.zipWith (fun (wi : F) (si : Fin 3 → F) => wi • si) w (sigmaPoses pose)).sum = pose ∧
      (getCovarianceForPose T m u pose pts).1 =
        some (Matrix.diagonal ![2 * a * 1.5 ^ 2 / S, 2 * b * 1.5 ^ 2 / S, 2 * c * 0.05 ^ 2 / S]) ∧
      (a = d → b = d → c = d →
        (getCovarianceForPose T m u pose pts).1 =
          some (Matrix.diagonal ![4.5 / 7, 4.5 / 7, 0.005 / 7])) := by
  intro S w
  have hsum : [a, a, b, b, c, c, d].sum = S := by
    simp only [List.sum_cons, List.sum_nil, add_zero, S]
    ring
  have hS' : [a, a, b, b, c, c, d].sum ≠ 0 := by rw [hsum]; exact hS
  have hcov := getCovarianceForPose_pairs T m u pose pts a b c d hne hl hS'
  rw [hsum] at hcov
  refine ⟨?_, hcov, ?_⟩
  · have h := weightedMean_pairs pose a b c d hS'
    rw [hsum] at h
    exact h
  · intro ha hb hc
    rw [hcov]
    have hd : d ≠ 0 := by
      intro h0
      apply hS
      rw [ha, hb, hc, h0]
      simp
    have hS7 : S = 7 * d := by
      simp only [S, ha, hb, hc]
      ring
    have e1 : 2 * d * 1.5 ^ 2 / (7 * d) = 4.5 / 7 := by
      field_simp
      norm_num
      ring
    have e2 : 2 * d * 0.05 ^ 2 / (7 * d) = 0.005 / 7 := by
      field_simp
      norm_num
      ring
    rw [hS7, ha, hb, hc, e1, e2]

theorem uniformLikelihoods (c : ℝ) :
    (likelihoodsSpec (⟨Real.sin, Real.cos⟩ : Trig ℝ) (uniformMap ℝ c) [(0, 0)] (freshUtil ℝ)
      (sigmaPoses ![3 / 2, 3 / 2, 0])).1 = [c, c, c, c, c, c, c] := by
  rw [likelihoodsSpec_origin_uniform _ (uniformMap ℝ c) c (fun _ => rfl) _ _
    (freshUtil_coherent _)]
  · rfl
  · intro s hs
    simp only [sigmaPoses, List.mem_cons, List.mem_singleton, List.not_mem_nil, or_false] at hs
    rcases hs with rfl | rfl | rfl | rfl | rfl | rfl | rfl <;>
      simp [uniformMap] <;> norm_num

theorem covariance_symmetric_pairs_witness :
    ([(0, 0)] : DataContainer ℝ) ≠ [] ∧
      (likelihoodsSpec (⟨Real.sin, Real.cos⟩ : Trig ℝ) (uniformMap ℝ (1 / 2)) [(0, 0)]
        (freshUtil ℝ) (sigmaPoses ![3 / 2, 3 / 2, 0])).1 =
        [1 / 2, 1 / 2, 1 / 2, 1 / 2, 1 / 2, 1 / 2, 1 / 2] ∧
      (1 / 2 + 1 / 2 + 1 / 2 + 1 / 2 + 1 / 2 + 1 / 2 + 1 / 2 : ℝ) ≠ 0 ∧
      (getCovarianceForPose (⟨Real.sin, Real.cos⟩ : Trig ℝ) (uniformMap ℝ (1 / 2)) (freshUtil ℝ)
        ![3 / 2, 3 / 2, 0] [(0, 0)]).1 =
        some (Matrix.diagonal ![4.5 / 7, 4.5 / 7, 0.005 / 7]) :=
  have hS : (1 / 2 + 1 / 2 + 1 / 2 + 1 / 2 + 1 / 2 + 1 / 2 + 1 / 2 : ℝ) ≠ 0 := by norm_num
  ⟨by simp, uniformLikelihoods (1 / 2), hS,
    (covariance_symmetric_pairs (⟨Real.sin, Real.cos⟩ : Trig ℝ) (uniformMap ℝ (1 / 2))
      (freshUtil ℝ) ![3 / 2, 3 / 2, 0] [(0, 0)] (1 / 2) (1 / 2) (1 / 2) (1 / 2) (by simp)
      (uniformLikelihoods (1 / 2)) hS).2.2 rfl rfl rfl⟩

theorem seven_ones_sum : ([1, 1, 1, 1, 1, 1, 1] : List F).sum = 7 := by
  simp only [List.sum_cons, List.sum_nil]
  norm_num

/-- C14 (amended): for every pose and non-empty scan whose seven sigma-point likelihoods
all equal 1, `getCovarianceForPose` divides by neither zero (the point count is non-zero and
the likelihood sum is 7) and returns `diag(4.5/7, 4.5/7, 0.005/7)`, the spread of the sigma
poses themselves. -/
theorem covariance_all_likelihoods_one (T : Trig F) (m : OccGridMap F) (u : OccGridMapUtil F)
    (pose : Fin 3 → F) (pts : DataContainer F) (hne : pts ≠ [])
    (hl : (likelihoodsSpec T m pts u (sigmaPoses pose)).1 = [1, 1, 1, 1, 1, 1, 1]) :
    ((pts.length : Int) : F) ≠ 0 ∧
      (likelihoodsSpec T m pts u (sigmaPoses pose)).1.sum = 7 ∧
      (likelihoodsSpec T m pts u (sigmaPoses pose)).1.sum ≠ 0 ∧
      (getCovarianceForPose T m u pose pts).1 =
        some (Matrix.diagonal ![4.5 / 7, 4.5 / 7, 0.005 / 7]) := by
  have h7 : ([1, 1, 1, 1, 1, 1, 1] : List F).sum ≠ 0 := by
    rw [seven_ones_sum]; norm_num
  refine ⟨?_, by rw [hl, seven_ones_sum], by rw [hl]; exact h7, ?_⟩
  · rw [Int.cast_natCast]
    exact Nat.cast_ne_zero.mpr (fun h => hne (List.length_eq_zero.mp h))
  · rw [getCovarianceForPose_pairs T m u pose pts 1 1 1 1 hne hl h7, seven_ones_sum]
    have e1 : (2 * 1 * 1.5 ^ 2 / 7 : F) = 4.5 / 7 := by norm_num
    have e2 : (2 * 1 * 0.05 ^ 2 / 7 : F) = 0.005 / 7 := by norm_num
    rw [e1, e2]

theorem covariance_all_likelihoods_one_witness :
    ([(0, 0)] : DataContainer ℝ) ≠ [] ∧
      (likelihoodsSpec (⟨Real.sin, Real.cos⟩ : Trig ℝ) (uniformMap ℝ 1) [(0, 0)]
        (freshUtil ℝ) (sigmaPoses ![3 / 2, 3 / 2, 0])).1 = [1, 1, 1, 1, 1, 1, 1] ∧
      (getCovarianceForPose (⟨Real.sin, Real.cos⟩ : Trig ℝ) (uniformMap ℝ 1) (freshUtil ℝ)
        ![3 / 2, 3 / 2, 0] [(0, 0)]).1 =
        some (Matrix.diagonal ![4.5 / 7, 4.5 / 7, 0.005 / 7]) :=
  ⟨by simp, uniformLikelihoods 1,
    (covariance_all_likelihoods_one (⟨Real.sin, Real.cos⟩ : Trig ℝ) (uniformMap ℝ 1)
      (freshUtil ℝ) ![3 / 2, 3 / 2, 0] [(0, 0)] (by simp) (uniformLikelihoods 1)).2.2.2⟩

/-- C14 (counterexample): on the 4×4 map all of whose cells hold 1, at pose
`(1.5, 1.5, 0)` with the one-point scan `[(0, 0)]`, all seven likelihoods equal 1 and the
returned covariance has the entries `(0,0)` and `(1,1)` equal to `9/14`, which is above
`1/2`: it is not near zero. -/
theorem covariance_not_near_zero :
    (likelihoodsSpec (⟨Real.sin, Real.cos⟩ : Trig ℝ) (uniformMap ℝ 1) [(0, 0)]
        (freshUtil ℝ) (sigmaPoses ![3 / 2, 3 / 2, 0])).1 = [1, 1, 1, 1, 1, 1, 1] ∧
      ∃ C : Matrix (Fin 3) (Fin 3) ℝ,
        (getCovarianceForPose (⟨Real.sin, Real.cos⟩ : Trig ℝ) (uniformMap ℝ 1) (freshUtil ℝ)
          ![3 / 2, 3 / 2, 0] [(0, 0)]).1 = some C ∧
        C 0 0 = 9 / 14 ∧ C 1 1 = 9 / 14 ∧ 1 / 2 < C 0 0 := by
  have h7 : ([1, 1, 1, 1, 1, 1, 1] : List ℝ).sum ≠ 0 := by
    rw [seven_ones_sum]; norm_num
  refine ⟨uniformLikelihoods 1, _, getCovarianceForPose_pairs _ _ _ _ _ 1 1 1 1 (by simp)
    (uniformLikelihoods 1) h7, ?_⟩
  rw [seven_ones_sum]
  norm_num [Matrix.diagonal_apply]

end Embedding

end hectorslam
